import Mathlib

/-!
Shallow embedding of the maze-game core of this repository:
the seeded PRNG `mulberry32`, the `Maze` generator / `canMove` query
(`src/maze.js`), the cell/pixel geometry and the continuous motion
resolver of `src/main.js`, the hurt-event rate limiter, and the discrete
hop animation of the earlier variant (`src/unnamed/part_000`).

Modelling conventions:
* JavaScript 32-bit integer arithmetic is modelled over `Nat` with
  explicit `% 2 ^ 32`; `x >>> n`, `x | y`, `x ^ y`, `Math.imul` become
  `>>>`, `|||`, `^^^`, `* · % 2 ^ 32` on the 32-bit bit patterns.
* Continuous (pixel) quantities are modelled over `ℚ`; `Math.floor` is
  `Int.floor`.
* JavaScript exceptions (reading a property of `undefined`) are modelled
  with `Except Unit`; a thrown `TypeError` is `Except.error ()`.
* The dense cell array `maze.grid` (length `cols * rows`, row-major, one
  passage bitmask per cell) is modelled as a total function
  `Nat → Nat` from cell index to passage mask, with array-bounds checks
  made explicit where the source indexes it.
-/

namespace Lost

/-- 2^32, the modulus of JavaScript 32-bit bit patterns. -/
def m32 : Nat := 4294967296

/-- One call of the closure returned by `mulberry32(a)` (maze.js):
`t = a += 0x6D2B79F5; t = imul(t ^ t >>> 15, t | 1);
t ^= t + imul(t ^ t >>> 7, t | 61); return ((t ^ t >>> 14) >>> 0) / 2^32`.
Returns the new accumulator together with the 32-bit numerator of the
output (the produced random number is `out / 2 ^ 32 ∈ [0,1)`). -/
def mulberryStep (a : Nat) : Nat × Nat :=
  let a1 := (a + 0x6D2B79F5) % m32
  let t1 := ((a1 ^^^ (a1 >>> 15)) * (a1 ||| 1)) % m32
  let t2 := t1 ^^^ ((t1 + ((t1 ^^^ (t1 >>> 7)) * (t1 ||| 61)) % m32) % m32)
  (a1, t2 ^^^ (t2 >>> 14))

/-- `Math.floor(rand() * len)` where `rand() = out / 2 ^ 32` exactly:
the floored product is the natural-number division `out * len / 2 ^ 32`. -/
def randIndex (out len : Nat) : Nat := out * len / m32

/-- `Cell.isOpen(dir)` (maze.js): `(this.passages & (1 << dir)) !== 0`. -/
def isOpen (mask dir : Nat) : Bool := mask &&& (1 <<< dir) != 0

/-- `Cell.open(dir)` (maze.js): `this.passages |= (1 << dir)`. -/
def openDir (mask dir : Nat) : Nat := mask ||| (1 <<< dir)

/-- `Maze.idx(x, y)` (maze.js): row-major cell index `y * cols + x`. -/
def nIdx (cols x y : Nat) : Nat := y * cols + x

/-- One entry of the list produced by `Maze.neighbors`: the neighbour's
cell coordinates together with the direction that points at it
(0 top, 1 right, 2 bottom, 3 left). -/
structure Nb where
  x : Nat
  y : Nat
  dir : Nat
deriving DecidableEq

/-- `Maze.neighbors(x, y)` (maze.js): in-bounds neighbours in the fixed
enumeration order top, right, bottom, left.  (`x < cols - 1` is written
`x + 1 < cols`, which is equivalent on naturals for every `cols`.) -/
def neighbors (cols rows x y : Nat) : List Nb :=
  (if 0 < y then [⟨x, y - 1, 0⟩] else []) ++
  (if x + 1 < cols then [⟨x + 1, y, 1⟩] else []) ++
  (if y + 1 < rows then [⟨x, y + 1, 2⟩] else []) ++
  (if 0 < x then [⟨x - 1, y, 3⟩] else [])

/-- Directional reading of the same bounds checks: the neighbour of
`(x, y)` in direction `d`, or `none` when the step leaves the grid. -/
def nbr (cols rows x y d : Nat) : Option (Nat × Nat) :=
  match d with
  | 0 => if 0 < y then some (x, y - 1) else none
  | 1 => if x + 1 < cols then some (x + 1, y) else none
  | 2 => if y + 1 < rows then some (x, y + 1) else none
  | 3 => if 0 < x then some (x - 1, y) else none
  | _ => none

/-- State of the iterative recursive-backtracker loop in `Maze.generate`:
the per-cell passage masks, the explicit stack, the visited set and the
PRNG accumulator. -/
structure GenState where
  grid : Nat → Nat
  stack : List (Nat × Nat)
  visited : Finset Nat
  rng : Nat

/-- Set passage bit `d` on the mask of cell index `i` (the effect of
`this.grid[i].open(d)` on the grid). -/
def updMask (g : Nat → Nat) (i d : Nat) : Nat → Nat :=
  fun j => if j = i then openDir (g i) d else g j

/-- Carve the passage between the current cell `(cx, cy)` and the chosen
neighbour `nb` on both cells: `c.open(n.dir); nb.open((n.dir + 2) % 4)`. -/
def carve (cols : Nat) (g : Nat → Nat) (cx cy : Nat) (nb : Nb) : Nat → Nat :=
  updMask (updMask g (nIdx cols cx cy) nb.dir) (nIdx cols nb.x nb.y) ((nb.dir + 2) % 4)

/-- One iteration of the `while (stack.length)` loop of `Maze.generate`:
look at the top cell's unvisited neighbours; pop if there are none,
otherwise pick one with the PRNG, carve the mutual passage, mark it
visited and push it. -/
def genStep (cols rows : Nat) (s : GenState) : GenState :=
  match s.stack with
  | [] => s
  | cur :: rest =>
    let unv := (neighbors cols rows cur.1 cur.2).filter
      fun nb => decide (nIdx cols nb.x nb.y ∉ s.visited)
    match unv with
    | [] => { s with stack := rest }
    | _ :: _ =>
      let r := mulberryStep s.rng
      let nb := unv.getD (randIndex r.2 unv.length) ⟨0, 0, 0⟩
      { grid := carve cols s.grid cur.1 cur.2 nb
        stack := (nb.x, nb.y) :: s.stack
        visited := insert (nIdx cols nb.x nb.y) s.visited
        rng := r.1 }

/-- Fuel-indexed unfolding of the generation loop.  The loop measure
`2 * (cols * rows - visited) + stack.length` strictly decreases at each
iteration, so `2 * (cols * rows)` units of fuel always suffice (proved
below); with the stack empty the state is returned unchanged. -/
def genLoop (cols rows : Nat) : Nat → GenState → GenState
  | 0, s => s
  | fuel + 1, s => if s.stack = [] then s else genLoop cols rows fuel (genStep cols rows s)

/-- Initial state of `Maze.generate(seed)`: zero masks, the start cell
`(0,0)` pushed and visited, PRNG seeded with `seed >>> 0 = seed % 2^32`. -/
def genInit (cols rows seed : Nat) : GenState :=
  { grid := fun _ => 0
    stack := [(0, 0)]
    visited := {nIdx cols 0 0}
    rng := seed % m32 }

/-- The per-cell passage masks produced by `Maze.generate(seed)` on a
`cols × rows` maze. -/
def generate (cols rows seed : Nat) : Nat → Nat :=
  (genLoop cols rows (2 * (cols * rows)) (genInit cols rows seed)).grid

/-- The `Maze` object surface consumed by the resolver and renderer:
dimensions and the per-cell passage masks (`grid` has `cols * rows`
cells; `grid i` is the passage mask of the cell with row-major index
`i`). -/
structure Maze where
  cols : Nat
  rows : Nat
  grid : Nat → Nat

/-- A maze as built by `startGame`: `new Maze(cols, rows)` followed by
`maze.generate(seed)`. -/
def mazeGen (cols rows seed : Nat) : Maze :=
  { cols := cols, rows := rows, grid := generate cols rows seed }

/-- Goal x-coordinate, fixed at the far corner: `cols - 1`. -/
def Maze.goalX (m : Maze) : Int := (m.cols : Int) - 1

/-- Goal y-coordinate, fixed at the far corner: `rows - 1`. -/
def Maze.goalY (m : Maze) : Int := (m.rows : Int) - 1

/-- JavaScript array read `this.grid[i]`: the element when
`0 ≤ i < cols * rows` (the grid's length), otherwise `undefined`,
modelled as `none`. -/
def Maze.cellAt (m : Maze) (i : Int) : Option Nat :=
  if 0 ≤ i ∧ i < ((m.cols * m.rows : Nat) : Int) then some (m.grid i.toNat) else none

/-- `Maze.canMove(x, y, dir)` (maze.js).  The source reads
`this.grid[this.idx(x, y)]` and calls `.isOpen(dir)` on it *before* any
bounds check on `(x, y)`; when the computed index falls outside the
array the read yields `undefined` and `.isOpen` throws a `TypeError`,
modelled as `Except.error ()`. -/
def Maze.canMove (m : Maze) (x y : Int) (dir : Nat) : Except Unit Bool :=
  match m.cellAt (y * m.cols + x) with
  | none => .error ()
  | some mask =>
    if isOpen mask dir = false then .ok false
    else if dir = 0 ∧ y ≤ 0 then .ok false
    else if dir = 1 ∧ x ≥ (m.cols : Int) - 1 then .ok false
    else if dir = 2 ∧ y ≥ (m.rows : Int) - 1 then .ok false
    else if dir = 3 ∧ x ≤ 0 then .ok false
    else .ok true

/-- Layout metrics `{cellSize, originX, originY}` shared by `drawMaze`
and the motion code. -/
structure Metrics where
  cellSize : ℚ
  originX : ℚ
  originY : ℚ

/-- The metrics triple computed (and returned) by `drawMaze` (maze.js):
`cellSize = floor(min(w, h) - padding * 2) / max(cols, rows)`,
`originX = (w - cellSize * cols) / 2`, `originY = (h - cellSize * rows) / 2`. -/
def layoutMetrics (w h padding : ℚ) (cols rows : Nat) : Metrics :=
  let cellSize : ℚ := ((⌊min w h - padding * 2⌋ : ℤ) : ℚ) / ((max cols rows : Nat) : ℚ)
  { cellSize := cellSize
    originX := (w - cellSize * cols) / 2
    originY := (h - cellSize * rows) / 2 }

/-- `cellCenter(cx, cy)` (main.js):
`[originX + (cx + 0.5) * cellSize, originY + (cy + 0.5) * cellSize]`. -/
def cellCenter (mt : Metrics) (cx cy : Int) : ℚ × ℚ :=
  (mt.originX + ((cx : ℚ) + 1/2) * mt.cellSize,
   mt.originY + ((cy : ℚ) + 1/2) * mt.cellSize)

/-- `cellFromPoint(px, py)` (main.js): floor the affine inverse and
return `null` (here `none`) when the cell falls outside
`[0, cols) × [0, rows)`. -/
def cellFromPoint (mt : Metrics) (m : Maze) (px py : ℚ) : Option (Int × Int) :=
  let x := ⌊(px - mt.originX) / mt.cellSize⌋
  let y := ⌊(py - mt.originY) / mt.cellSize⌋
  if x < 0 ∨ y < 0 ∨ x ≥ (m.cols : Int) ∨ y ≥ (m.rows : Int) then none else some (x, y)

/-- `canTraverse(x1, y1, x2, y2)` (main.js): map both continuous
positions to cells; missing cell ⇒ false; same cell ⇒ true; non-adjacent
cells ⇒ false; adjacent cells ⇒ `maze.canMove` in the step direction
(`dx === 1 ? 1 : dx === -1 ? 3 : dy === 1 ? 2 : 0`). -/
def canTraverse (mt : Metrics) (m : Maze) (x1 y1 x2 y2 : ℚ) : Except Unit Bool :=
  match cellFromPoint mt m x1 y1, cellFromPoint mt m x2 y2 with
  | some a, some b =>
    if a.1 = b.1 ∧ a.2 = b.2 then .ok true
    else
      let dx := b.1 - a.1
      let dy := b.2 - a.2
      if dx.natAbs + dy.natAbs ≠ 1 then .ok false
      else
        m.canMove a.1 a.2
          (if dx = 1 then 1 else if dx = -1 then 3 else if dy = 1 then 2 else 0)
  | _, _ => .ok false

/-- `attemptMove(cx, cy, dx, dy)` (main.js): try the full step, then the
X-axis slide, then the Y-axis slide; when everything is blocked stay put
and call `maybeHurt()`.  The boolean of the result records whether
`maybeHurt()` was invoked. -/
def attemptMove (mt : Metrics) (m : Maze) (cx cy dx dy : ℚ) :
    Except Unit ((ℚ × ℚ) × Bool) := do
  if (← canTraverse mt m cx cy (cx + dx) (cy + dy)) then
    return ((cx + dx, cy + dy), false)
  if (← canTraverse mt m cx cy (cx + dx) cy) then
    return ((cx + dx, cy), false)
  if (← canTraverse mt m cx cy cx (cy + dy)) then
    return ((cx, cy + dy), false)
  return ((cx, cy), true)

/-- Evaluates an `Except Unit Bool` the way a JavaScript `if` consumes a
boolean call that did not throw: `true` exactly for a normal `true`
return. -/
def isOkTrue : Except Unit Bool → Bool
  | .ok true => true
  | _ => false

/-- `maybeHurt()` (both variants): fire and remember `now` when more
than 220 ms have passed since `lastHurtAt`, otherwise do nothing.
Returns (fired?, new `lastHurtAt`). -/
def maybeHurt (lastHurtAt now : ℚ) : Bool × ℚ :=
  if now - lastHurtAt > 220 then (true, now) else (false, lastHurtAt)

/-- Timestamps at which the hurt event actually fires when `maybeHurt`
is consulted at each timestamp of `ts` in order, starting from a given
`lastHurtAt` (initially `0` in the source). -/
def hurtFires : ℚ → List ℚ → List ℚ
  | _, [] => []
  | last, now :: ts =>
    let r := maybeHurt last now
    if r.1 then now :: hurtFires r.2 ts else hurtFires r.2 ts

/-- Dominant-axis direction toward a drag target (part_000, lines
160-162 and 199): `absX > absY ? (dx > 0 ? 1 : 3) : (dy > 0 ? 2 : 0)`. -/
def dirToward (dx dy : ℚ) : Nat :=
  if |dx| > |dy| then (if dx > 0 then 1 else 3) else (if dy > 0 then 2 else 0)

/-- Game-loop state of the discrete-hop variant (part_000): the player
record (current cell, continuous position, hop target, radius, `moving`
flag) together with the module-level `queuedDir`, `dragging` and
`lastTouch`.  `fires` counts calls of `onGoal()` and `hurtReqs` counts
calls of `maybeHurt()` (the audio/vibration side effects themselves are
external collaborators, out of scope). -/
structure AState where
  cellX : Int
  cellY : Int
  x : ℚ
  y : ℚ
  targetX : ℚ
  targetY : ℚ
  radius : ℚ
  moving : Bool
  queuedDir : Option Nat
  dragging : Bool
  lastTouch : Option (ℚ × ℚ)
  hurtReqs : Nat
  fires : Nat

/-- Player initialisation of `startGame()` (part_000): cell `(0,0)`, the
continuous position at its centre, radius `max(10, floor(cellSize * 0.28))`,
not moving, nothing queued, not dragging. -/
def startA (mt : Metrics) : AState :=
  { cellX := 0
    cellY := 0
    x := (cellCenter mt 0 0).1
    y := (cellCenter mt 0 0).2
    targetX := (cellCenter mt 0 0).1
    targetY := (cellCenter mt 0 0).2
    radius := max 10 ((⌊mt.cellSize * (28/100)⌋ : ℤ) : ℚ)
    moving := false
    queuedDir := none
    dragging := false
    lastTouch := none
    hurtReqs := 0
    fires := 0 }

/-- Per-tick hop speed of part_000's `animate`:
`max(4, floor(cellSize * 0.24))`. -/
def speedA (mt : Metrics) : ℚ := max 4 ((⌊mt.cellSize * (24/100)⌋ : ℤ) : ℚ)

/-- `Math.hypot(vx, vy)` restricted to the axis-aligned displacements
produced by `animate` (part_000): every hop runs between the centres of
two grid-adjacent cells, so one of `vx`, `vy` is always `0`, where the
hypotenuse equals `|vx| + |vy|`. -/
def hypotAx (vx vy : ℚ) : ℚ := |vx| + |vy|

/-- The cell one step from `(cx, cy)` in direction `dir` (part_000,
lines 175-176 and 203-204):
`nx = cellX + (dir === 1 ? 1 : dir === 3 ? -1 : 0)` and
`ny = cellY + (dir === 2 ? 1 : dir === 0 ? -1 : 0)`. -/
def stepCell (cx cy : Int) (dir : Nat) : Int × Int :=
  (cx + (if dir = 1 then 1 else if dir = 3 then -1 else 0),
   cy + (if dir = 2 then 1 else if dir = 0 then -1 else 0))

/-- `tryStepToward(x, y)` (part_000): compute the dominant-axis
direction toward the target; while mid-hop queue it if valid else call
`maybeHurt()`; otherwise start a hop to the adjacent cell centre when
`canMove` allows it, else call `maybeHurt()`. -/
def tryStepToward (mt : Metrics) (m : Maze) (s : AState) (tx ty : ℚ) :
    Except Unit AState := do
  let dir := dirToward (tx - s.x) (ty - s.y)
  if s.moving then
    if (← m.canMove s.cellX s.cellY dir) then
      return { s with queuedDir := some dir }
    else
      return { s with hurtReqs := s.hurtReqs + 1 }
  else
    if (← m.canMove s.cellX s.cellY dir) = false then
      return { s with hurtReqs := s.hurtReqs + 1 }
    else
      let c := stepCell s.cellX s.cellY dir
      let t := cellCenter mt c.1 c.2
      return { s with cellX := c.1, cellY := c.2,
                      targetX := t.1, targetY := t.2, moving := true }

/-- One animation frame of part_000's `animate().step`: if the remaining
distance to the hop target is within one tick's speed, snap to the
target, clear `moving`, call `onGoal()` whenever the occupying cell is
the goal cell (there is no `won` latch in this variant), then chain the
queued or drag-derived direction; otherwise advance `speed` pixels
toward the target. -/
def animStepA (mt : Metrics) (m : Maze) (s : AState) : Except Unit AState := do
  let speed := speedA mt
  let vx := s.targetX - s.x
  let vy := s.targetY - s.y
  let dist := hypotAx vx vy
  if dist ≤ speed then
    let s1 := { s with x := s.targetX, y := s.targetY, moving := false }
    let s2 := if s1.cellX = m.goalX ∧ s1.cellY = m.goalY then
        { s1 with fires := s1.fires + 1 } else s1
    if s2.moving = false ∧ (s2.queuedDir.isSome ∨ (s2.dragging ∧ s2.lastTouch.isSome)) then
      let dir? : Option Nat :=
        match s2.queuedDir, s2.dragging, s2.lastTouch with
        | some d, _, _ => some d
        | none, true, some t => some (dirToward (t.1 - s2.x) (t.2 - s2.y))
        | _, _, _ => none
      let s3 := { s2 with queuedDir := none }
      match dir? with
      | some dir =>
        if (← m.canMove s3.cellX s3.cellY dir) then
          let c := stepCell s3.cellX s3.cellY dir
          let t := cellCenter mt c.1 c.2
          return { s3 with cellX := c.1, cellY := c.2,
                           targetX := t.1, targetY := t.2, moving := true }
        else
          return s3
      | none => return s3
    else
      return s2
  else
    return { s with x := s.x + vx / dist * speed, y := s.y + vy / dist * speed }

/-- `withinPlayer(x, y)` (part_000): grab test
`dx*dx + dy*dy <= radius^2 * 1.6`. -/
def withinPlayer (s : AState) (x y : ℚ) : Bool :=
  decide ((x - s.x) * (x - s.x) + (y - s.y) * (y - s.y) ≤ s.radius * s.radius * (16/10))

/-- External events driving the part_000 loop: pointer down / move / up
and one animation frame. -/
inductive AAction
  | down (x y : ℚ)
  | move (x y : ℚ)
  | up
  | frame

/-- Dispatch of one event (part_000): `onStart` begins dragging when the
grab test passes; `onMove` records `lastTouch` and calls
`tryStepToward`; `onEnd` clears the drag; a frame callback runs one
`step` of `animate` — frames are pending exactly while a hop is running
(`animate` schedules the next frame only when `moving` remains set), so
a frame with `moving` clear is a no-op. -/
def aStep (mt : Metrics) (m : Maze) (s : AState) : AAction → Except Unit AState
  | .down tx ty =>
    if withinPlayer s tx ty then
      pure { s with dragging := true, lastTouch := some (tx, ty) }
    else pure s
  | .move tx ty =>
    if s.dragging then
      tryStepToward mt m { s with lastTouch := some (tx, ty) } tx ty
    else pure s
  | .up => pure { s with dragging := false, lastTouch := none }
  | .frame => if s.moving then animStepA mt m s else pure s

/-- Run a sequence of events through the part_000 loop. -/
def runA (mt : Metrics) (m : Maze) : AState → List AAction → Except Unit AState
  | s, [] => pure s
  | s, a :: rest => do runA mt m (← aStep mt m s a) rest

/-- Number of `onGoal()` calls made while running `acts` from the fresh
level state of part_000's `startGame()`. -/
def runAFires (mt : Metrics) (m : Maze) (acts : List AAction) : Except Unit Nat :=
  (runA mt m (startA mt) acts).map AState.fires

/-- Concrete layout used to exercise the part_000 loop: 100-pixel cells
with the grid at the canvas origin. -/
def c3Metrics : Metrics := ⟨100, 0, 0⟩

/-- The 2 × 2 maze of `startGame()` at seed 0.  Its passage masks are
`[2, 12, 2, 9]`: the spanning tree `(0,0)−(1,0)`, `(1,0)−(1,1)`,
`(0,1)−(1,1)`. -/
def c3Maze : Maze := mazeGen 2 2 0

/-- An event interleaving of one level: grab the player at `(50, 50)`,
drag to the centre of cell `(1,0)` (one hop of five frames), then drag
to the centre of the goal cell `(1,1)`; the hop arrives on the goal
(first `onGoal()`), the still-pending drag then chains a hop up to
`(1,0)` and back down onto the goal, where the next arrival fires
`onGoal()` again. -/
def c3Trace : List AAction :=
  [.down 50 50, .move 150 50, .frame, .frame, .frame, .frame, .frame,
   .move 150 150, .frame, .frame, .frame, .frame, .frame,
   .frame, .frame, .frame, .frame, .frame,
   .frame, .frame, .frame, .frame, .frame]

/-- One-sided open-passage adjacency between cell indices `i` and `j`:
the cell at index `i` has a neighbour in direction `d` whose index is
`j`, with the passage open on both sides (`i`'s bit `d`, `j`'s bit
`(d + 2) % 4`). -/
def adjHalf (cols rows : Nat) (g : Nat → Nat) (i j d : Nat) : Bool :=
  match nbr cols rows (i % cols) (i / cols) d with
  | some q => decide (nIdx cols q.1 q.2 = j) && isOpen (g i) d && isOpen (g j) ((d + 2) % 4)
  | none => false

/-- Open-passage adjacency between cell indices, over the four
directions. -/
def adjB (cols rows : Nat) (g : Nat → Nat) (i j : Nat) : Bool :=
  adjHalf cols rows g i j 0 || adjHalf cols rows g i j 1 ||
  adjHalf cols rows g i j 2 || adjHalf cols rows g i j 3

/-- Reachability between cell indices through open passages. -/
def Reach (cols rows : Nat) (g : Nat → Nat) : Nat → Nat → Prop :=
  Relation.ReflTransGen fun i j => adjB cols rows g i j = true

/-- The undirected passage graph of a `cols × rows` grid of passage
masks, on the `cols * rows` row-major cell indices. -/
def passageGraph (cols rows : Nat) (g : Nat → Nat) : SimpleGraph (Fin (cols * rows)) where
  Adj i j := i ≠ j ∧
    (adjB cols rows g (i : Nat) (j : Nat) = true ∨ adjB cols rows g (j : Nat) (i : Nat) = true)
  symm := by
    intro i j h
    exact ⟨h.1.symm, h.2.symm⟩
  loopless := by
    intro i h
    exact h.1 rfl

/-- The mutually-carved passage pair whose canonical representative is
cell `(x, y)` and direction `d`: bit `d` open at `(x, y)`, the neighbour
in direction `d` inside the grid, and the opposite bit `(d + 2) % 4`
open on that neighbour. -/
def openPair (cols rows : Nat) (g : Nat → Nat) (x y d : Nat) : Bool :=
  isOpen (g (nIdx cols x y)) d &&
    match nbr cols rows x y d with
    | some q => isOpen (g (nIdx cols q.1 q.2)) ((d + 2) % 4)
    | none => false

/-- Each undirected open passage pair counted once, via its canonical
representative: the left/top cell together with direction 1 (right) or
2 (down). -/
def pairSet (cols rows : Nat) (g : Nat → Nat) : Finset ((Nat × Nat) × Nat) :=
  ((Finset.range cols ×ˢ Finset.range rows) ×ˢ ({1, 2} : Finset Nat)).filter
    fun e => openPair cols rows g e.1.1 e.1.2 e.2 = true

/-- Number of open passage pairs (mutually carved edges) of the grid. -/
def pairCount (cols rows : Nat) (g : Nat → Nat) : Nat := (pairSet cols rows g).card

/-- Loop measure of the generation loop: each iteration either pops the
stack or visits a fresh cell while pushing once, so the measure strictly
decreases. -/
def genMeasure (cols rows : Nat) (s : GenState) : Nat :=
  2 * (cols * rows) - 2 * s.visited.card + s.stack.length

/-- Invariants of the recursive-backtracker state, established at
initialisation and preserved by every loop iteration. -/
structure GenInv (cols rows : Nat) (s : GenState) : Prop where
  visBound : ∀ i ∈ s.visited, i < cols * rows
  startVis : nIdx cols 0 0 ∈ s.visited
  stackGrid : ∀ c ∈ s.stack, c.1 < cols ∧ c.2 < rows ∧ nIdx cols c.1 c.2 ∈ s.visited
  stackNodup : (s.stack.map fun c => nIdx cols c.1 c.2).Nodup
  mutualInv : ∀ x y d, x < cols → y < rows → d < 4 →
    isOpen (s.grid (nIdx cols x y)) d = true →
    ∃ q, nbr cols rows x y d = some q ∧
      isOpen (s.grid (nIdx cols q.1 q.2)) ((d + 2) % 4) = true
  closedFresh : ∀ x y, x < cols → y < rows → nIdx cols x y ∉ s.visited →
    s.grid (nIdx cols x y) = 0
  closure : ∀ x y, x < cols → y < rows → nIdx cols x y ∈ s.visited →
    (x, y) ∉ s.stack →
    ∀ d q, nbr cols rows x y d = some q → nIdx cols q.1 q.2 ∈ s.visited
  reach : ∀ i ∈ s.visited, Reach cols rows s.grid (nIdx cols 0 0) i
  count : pairCount cols rows s.grid + 1 = s.visited.card
  acyclic : (passageGraph cols rows s.grid).IsAcyclic

/-! ### Basic lemmas about the maze query surface -/

theorem cellAt_eq_some (m : Maze) (i : Int) (h0 : 0 ≤ i)
    (h1 : i < ((m.cols * m.rows : Nat) : Int)) :
    m.cellAt i = some (m.grid i.toNat) := by
  unfold Maze.cellAt
  rw [if_pos ⟨h0, h1⟩]

theorem idx_lt_size (m : Maze) (x y : Int) (hx0 : 0 ≤ x) (hx : x < (m.cols : Int))
    (hy0 : 0 ≤ y) (hy : y < (m.rows : Int)) :
    0 ≤ y * m.cols + x ∧ y * m.cols + x < ((m.cols * m.rows : Nat) : Int) := by
  constructor
  · have := mul_nonneg hy0 (Int.ofNat_nonneg m.cols)
    omega
  · have h2 : y * (m.cols : Int) + x < (y + 1) * m.cols := by
      rw [add_mul, one_mul]
      omega
    have h3 : (y + 1) * (m.cols : Int) ≤ (m.rows : Int) * m.cols := by
      apply mul_le_mul_of_nonneg_right _ (Int.ofNat_nonneg m.cols)
      omega
    have h4 : ((m.cols * m.rows : Nat) : Int) = (m.rows : Int) * m.cols := by
      push_cast
      ring
    omega

theorem canMove_eq_of_cellAt (m : Maze) (x y : Int) (dir : Nat) (mask : Nat)
    (h : m.cellAt (y * m.cols + x) = some mask) :
    m.canMove x y dir =
      (if isOpen mask dir = false then .ok false
       else if dir = 0 ∧ y ≤ 0 then .ok false
       else if dir = 1 ∧ x ≥ (m.cols : Int) - 1 then .ok false
       else if dir = 2 ∧ y ≥ (m.rows : Int) - 1 then .ok false
       else if dir = 3 ∧ x ≤ 0 then .ok false
       else .ok true) := by
  unfold Maze.canMove
  rw [h]

theorem canMove_isOk (m : Maze) (x y : Int) (dir : Nat) (hx0 : 0 ≤ x)
    (hx : x < (m.cols : Int)) (hy0 : 0 ≤ y) (hy : y < (m.rows : Int)) :
    ∃ b, m.canMove x y dir = .ok b := by
  obtain ⟨h0, h1⟩ := idx_lt_size m x y hx0 hx hy0 hy
  rw [canMove_eq_of_cellAt m x y dir _ (cellAt_eq_some m _ h0 h1)]
  repeat (first | exact ⟨_, rfl⟩ | split)

theorem canMove_boundary (m : Maze) (x y : Int) (dir : Nat) (hx0 : 0 ≤ x)
    (hx : x < (m.cols : Int)) (hy0 : 0 ≤ y) (hy : y < (m.rows : Int))
    (hexit : (dir = 0 ∧ y = 0) ∨ (dir = 1 ∧ x = (m.cols : Int) - 1) ∨
      (dir = 2 ∧ y = (m.rows : Int) - 1) ∨ (dir = 3 ∧ x = 0)) :
    m.canMove x y dir = .ok false := by
  obtain ⟨h0, h1⟩ := idx_lt_size m x y hx0 hx hy0 hy
  rw [canMove_eq_of_cellAt m x y dir _ (cellAt_eq_some m _ h0 h1)]
  rcases hexit with ⟨hd, hc⟩ | ⟨hd, hc⟩ | ⟨hd, hc⟩ | ⟨hd, hc⟩ <;> subst hd <;>
    (repeat (first | rfl | split)) <;> exfalso <;> omega

/-- C1 counterexample: `canMove(-1, 0, 0)` on a generated 2 × 2 maze
computes array index `-1`, reads `undefined` from the grid and throws a
`TypeError` when calling `.isOpen` on it — it does not return `false`.
The claim that out-of-range coordinates yield `false` without throwing
is therefore false as stated. -/
theorem canMove_out_of_range_throws :
    (mazeGen 2 2 0).canMove (-1) 0 0 = Except.error () := rfl

/-- C1 (amended): for coordinates inside `[0, cols) × [0, rows)` and any
direction, `canMove` never throws, and it returns `false` whenever the
move would exit the grid, regardless of which passage-mask bits are set;
for out-of-range coordinates `canMove` may instead throw (see the
counterexample). -/
theorem canMove_inbounds_total_and_boundary (m : Maze) (x y : Int) (dir : Nat)
    (hx0 : 0 ≤ x) (hx : x < (m.cols : Int)) (hy0 : 0 ≤ y) (hy : y < (m.rows : Int)) :
    (∃ b, m.canMove x y dir = .ok b) ∧
    ((dir = 0 ∧ y = 0) ∨ (dir = 1 ∧ x = (m.cols : Int) - 1) ∨
        (dir = 2 ∧ y = (m.rows : Int) - 1) ∨ (dir = 3 ∧ x = 0) →
      m.canMove x y dir = .ok false) :=
  ⟨canMove_isOk m x y dir hx0 hx hy0 hy,
   fun hexit => canMove_boundary m x y dir hx0 hx hy0 hy hexit⟩

/-- C1 witness: the amended claim applied at cell `(1, 0)` of the
generated 2 × 2 maze with `dir = 1` (a move off the right edge). -/
theorem canMove_inbounds_total_and_boundary_witness :
    (0 ≤ (1 : Int)) ∧ ((1 : Int) < ((mazeGen 2 2 0).cols : Int)) ∧
    (0 ≤ (0 : Int)) ∧ ((0 : Int) < ((mazeGen 2 2 0).rows : Int)) ∧
    ((∃ b, (mazeGen 2 2 0).canMove 1 0 1 = .ok b) ∧
     ((1 = 0 ∧ (0 : Int) = 0) ∨ (1 = 1 ∧ (1 : Int) = ((mazeGen 2 2 0).cols : Int) - 1) ∨
         (1 = 2 ∧ (0 : Int) = ((mazeGen 2 2 0).rows : Int) - 1) ∨ (1 = 3 ∧ (1 : Int) = 0) →
       (mazeGen 2 2 0).canMove 1 0 1 = .ok false)) :=
  ⟨by decide, by decide, by decide, by decide,
   canMove_inbounds_total_and_boundary (mazeGen 2 2 0) 1 0 1
     (by decide) (by decide) (by decide) (by decide)⟩

/-! ### Geometry: cellFromPoint and the coordinate round-trip -/

theorem cellFromPoint_bounds (mt : Metrics) (m : Maze) (px py : ℚ) (c : Int × Int)
    (h : cellFromPoint mt m px py = some c) :
    0 ≤ c.1 ∧ c.1 < (m.cols : Int) ∧ 0 ≤ c.2 ∧ c.2 < (m.rows : Int) := by
  unfold cellFromPoint at h
  simp only [] at h
  split at h
  · exact absurd h (by simp)
  · next hneg =>
    push_neg at hneg
    cases h
    exact ⟨hneg.1, hneg.2.2.1, hneg.2.1, hneg.2.2.2⟩

/-- C6: the coordinate round-trip.  With the layout metrics produced by
`drawMaze` (for any canvas for which the cell size is nonzero), mapping
an in-range cell to its centre with `cellCenter` and back with
`cellFromPoint` returns exactly the original cell. -/
theorem cellFromPoint_cellCenter_roundtrip (w h padding : ℚ) (m : Maze) (cx cy : Int)
    (hcs : (layoutMetrics w h padding m.cols m.rows).cellSize ≠ 0)
    (hx0 : 0 ≤ cx) (hx : cx < (m.cols : Int)) (hy0 : 0 ≤ cy) (hy : cy < (m.rows : Int)) :
    cellFromPoint (layoutMetrics w h padding m.cols m.rows) m
        (cellCenter (layoutMetrics w h padding m.cols m.rows) cx cy).1
        (cellCenter (layoutMetrics w h padding m.cols m.rows) cx cy).2 = some (cx, cy) := by
  set mt := layoutMetrics w h padding m.cols m.rows with hmt
  have key : ∀ (o : ℚ) (z : Int),
      ⌊(o + ((z : ℚ) + 1/2) * mt.cellSize - o) / mt.cellSize⌋ = z := by
    intro o z
    rw [add_sub_cancel_left, mul_div_cancel_right₀ _ hcs, Int.floor_int_add]
    norm_num
  unfold cellFromPoint cellCenter
  simp only []
  rw [key mt.originX cx, key mt.originY cy]
  rw [if_neg]
  omega

/-- C6 witness: the round-trip at cell `(3, 2)` of the 5 × 5 maze of
seed 42 on a 500 × 400 canvas with the default padding 16. -/
theorem cellFromPoint_cellCenter_roundtrip_witness :
    ((layoutMetrics 500 400 16 (mazeGen 5 5 42).cols (mazeGen 5 5 42).rows).cellSize ≠ 0) ∧
    cellFromPoint (layoutMetrics 500 400 16 (mazeGen 5 5 42).cols (mazeGen 5 5 42).rows)
        (mazeGen 5 5 42)
        (cellCenter (layoutMetrics 500 400 16 (mazeGen 5 5 42).cols (mazeGen 5 5 42).rows) 3 2).1
        (cellCenter (layoutMetrics 500 400 16 (mazeGen 5 5 42).cols (mazeGen 5 5 42).rows) 3 2).2
      = some (3, 2) :=
  ⟨by with_unfolding_all decide,
   cellFromPoint_cellCenter_roundtrip 500 400 16 (mazeGen 5 5 42) 3 2
     (by with_unfolding_all decide) (by decide) (by decide) (by decide) (by decide)⟩

/-! ### The traversal check and the slide cascade -/

theorem canTraverse_eq (mt : Metrics) (m : Maze) (x1 y1 x2 y2 : ℚ) (a b : Int × Int)
    (ha : cellFromPoint mt m x1 y1 = some a) (hb : cellFromPoint mt m x2 y2 = some b) :
    canTraverse mt m x1 y1 x2 y2 =
      (if a.1 = b.1 ∧ a.2 = b.2 then .ok true
       else if (b.1 - a.1).natAbs + (b.2 - a.2).natAbs ≠ 1 then .ok false
       else m.canMove a.1 a.2
         (if b.1 - a.1 = 1 then 1 else if b.1 - a.1 = -1 then 3
          else if b.2 - a.2 = 1 then 2 else 0)) := by
  unfold canTraverse
  rw [ha, hb]

theorem canTraverse_isOk (mt : Metrics) (m : Maze) (x1 y1 x2 y2 : ℚ) :
    ∃ b, canTraverse mt m x1 y1 x2 y2 = .ok b := by
  cases ha : cellFromPoint mt m x1 y1 with
  | none => exact ⟨false, by unfold canTraverse; rw [ha]⟩
  | some a =>
    cases hb : cellFromPoint mt m x2 y2 with
    | none => exact ⟨false, by unfold canTraverse; rw [ha, hb]⟩
    | some b =>
      rw [canTraverse_eq mt m x1 y1 x2 y2 a b ha hb]
      split
      · exact ⟨_, rfl⟩
      split
      · exact ⟨_, rfl⟩
      obtain ⟨c1, c2, c3, c4⟩ := cellFromPoint_bounds mt m x1 y1 a ha
      exact canMove_isOk m a.1 a.2 _ c1 c2 c3 c4

/-- C4: the Variant B traversal check.  When both continuous positions
map to in-grid cells: the same cell is always traversable; cells one
unit apart on exactly one axis defer to `canMove` in the step direction
(so traversal succeeds iff that directional passage is open); and cells
apart by more than one unit on an axis, or differing on both axes,
are rejected — no tunneling. -/
theorem canTraverse_cell_cases (mt : Metrics) (m : Maze) (x1 y1 x2 y2 : ℚ)
    (a b : Int × Int) (ha : cellFromPoint mt m x1 y1 = some a)
    (hb : cellFromPoint mt m x2 y2 = some b) :
    (a = b → canTraverse mt m x1 y1 x2 y2 = .ok true) ∧
    ((b.1 - a.1).natAbs + (b.2 - a.2).natAbs = 1 →
      canTraverse mt m x1 y1 x2 y2 =
        m.canMove a.1 a.2
          (if b.1 - a.1 = 1 then 1 else if b.1 - a.1 = -1 then 3
           else if b.2 - a.2 = 1 then 2 else 0)) ∧
    (2 ≤ (b.1 - a.1).natAbs ∨ 2 ≤ (b.2 - a.2).natAbs ∨
        (b.1 - a.1 ≠ 0 ∧ b.2 - a.2 ≠ 0) →
      canTraverse mt m x1 y1 x2 y2 = .ok false) := by
  rw [canTraverse_eq mt m x1 y1 x2 y2 a b ha hb]
  refine ⟨fun hab => ?_, fun h1 => ?_, fun h2 => ?_⟩
  · subst hab
    rw [if_pos ⟨rfl, rfl⟩]
  · rw [if_neg, if_neg]
    · omega
    · omega
  · rw [if_neg, if_pos]
    · omega
    · omega

/-- C4 witness: positions `(50, 50)` and `(150, 50)` of the 2 × 2 maze
of seed 0 under 100-pixel cells map to the adjacent cells `(0, 0)` and
`(1, 0)`. -/
theorem canTraverse_cell_cases_witness :
    (cellFromPoint c3Metrics c3Maze 50 50 = some (0, 0)) ∧
    (cellFromPoint c3Metrics c3Maze 150 50 = some (1, 0)) ∧
    ((((0 : Int), (0 : Int)) = ((1 : Int), (0 : Int)) →
        canTraverse c3Metrics c3Maze 50 50 150 50 = .ok true) ∧
     ((((1 : Int) - 0).natAbs + ((0 : Int) - 0).natAbs = 1 →
        canTraverse c3Metrics c3Maze 50 50 150 50 =
          c3Maze.canMove 0 0
            (if (1 : Int) - 0 = 1 then 1 else if (1 : Int) - 0 = -1 then 3
             else if (0 : Int) - 0 = 1 then 2 else 0))) ∧
     (2 ≤ ((1 : Int) - 0).natAbs ∨ 2 ≤ ((0 : Int) - 0).natAbs ∨
         ((1 : Int) - 0 ≠ 0 ∧ (0 : Int) - 0 ≠ 0) →
       canTraverse c3Metrics c3Maze 50 50 150 50 = .ok false)) :=
  ⟨by with_unfolding_all decide, by with_unfolding_all decide,
   canTraverse_cell_cases c3Metrics c3Maze 50 50 150 50 (0, 0) (1, 0)
     (by with_unfolding_all decide) (by with_unfolding_all decide)⟩

theorem isOkTrue_eq (e : Except Unit Bool) : isOkTrue e = true ↔ e = .ok true := by
  cases e with
  | error u => simp [isOkTrue]
  | ok b => cases b <;> simp [isOkTrue]

theorem attemptMove_spec (mt : Metrics) (m : Maze) (cx cy dx dy : ℚ) :
    attemptMove mt m cx cy dx dy = .ok
      (if isOkTrue (canTraverse mt m cx cy (cx + dx) (cy + dy)) = true then
        ((cx + dx, cy + dy), false)
       else if isOkTrue (canTraverse mt m cx cy (cx + dx) cy) = true then
        ((cx + dx, cy), false)
       else if isOkTrue (canTraverse mt m cx cy cx (cy + dy)) = true then
        ((cx, cy + dy), false)
       else ((cx, cy), true)) := by
  obtain ⟨b1, h1⟩ := canTraverse_isOk mt m cx cy (cx + dx) (cy + dy)
  obtain ⟨b2, h2⟩ := canTraverse_isOk mt m cx cy (cx + dx) cy
  obtain ⟨b3, h3⟩ := canTraverse_isOk mt m cx cy cx (cy + dy)
  unfold attemptMove
  rw [h1, h2, h3]
  cases b1 <;> cases b2 <;> cases b3 <;>
    simp [isOkTrue, Except.bind, Bind.bind, pure, Except.pure]

/-- C5: `attemptMove` returns the full-step position when the full step
is traversable, otherwise the X-only slide if traversable, otherwise
the Y-only slide if traversable; when all three fail it returns the
input position exactly unchanged and invokes the rate-limited hurt
event (the boolean of the result). -/
theorem attemptMove_slide_cascade (mt : Metrics) (m : Maze) (cx cy dx dy : ℚ) :
    attemptMove mt m cx cy dx dy = .ok
      (if isOkTrue (canTraverse mt m cx cy (cx + dx) (cy + dy)) = true then
        ((cx + dx, cy + dy), false)
       else if isOkTrue (canTraverse mt m cx cy (cx + dx) cy) = true then
        ((cx + dx, cy), false)
       else if isOkTrue (canTraverse mt m cx cy cx (cy + dy)) = true then
        ((cx, cy + dy), false)
       else ((cx, cy), true)) :=
  attemptMove_spec mt m cx cy dx dy

theorem canTraverse_true_dest (mt : Metrics) (m : Maze) (x1 y1 x2 y2 : ℚ)
    (h : canTraverse mt m x1 y1 x2 y2 = .ok true) :
    (cellFromPoint mt m x2 y2).isSome = true := by
  cases hb : cellFromPoint mt m x2 y2 with
  | some b => rfl
  | none =>
    cases ha : cellFromPoint mt m x1 y1 with
    | none => unfold canTraverse at h; rw [ha, hb] at h; cases h
    | some a => unfold canTraverse at h; rw [ha, hb] at h; cases h

/-- C10 (implicit): `attemptMove` never moves the agent out of the maze
rectangle — whenever the starting position maps to a valid in-grid cell,
the returned position also maps to a valid in-grid cell. -/
theorem attemptMove_stays_in_grid (mt : Metrics) (m : Maze) (cx cy dx dy : ℚ)
    (h : (cellFromPoint mt m cx cy).isSome = true) :
    ∃ p fired, attemptMove mt m cx cy dx dy = .ok (p, fired) ∧
      (cellFromPoint mt m p.1 p.2).isSome = true := by
  rw [attemptMove_spec mt m cx cy dx dy]
  split
  · next h1 => exact ⟨_, _, rfl, canTraverse_true_dest mt m cx cy _ _ ((isOkTrue_eq _).1 h1)⟩
  split
  · next h2 => exact ⟨_, _, rfl, canTraverse_true_dest mt m cx cy _ _ ((isOkTrue_eq _).1 h2)⟩
  split
  · next h3 => exact ⟨_, _, rfl, canTraverse_true_dest mt m cx cy _ _ ((isOkTrue_eq _).1 h3)⟩
  exact ⟨_, _, rfl, h⟩

/-- C10 witness: from the centre of the start cell with a blocked
leftward step of a full cell, the returned position still maps into the
grid. -/
theorem attemptMove_stays_in_grid_witness :
    ((cellFromPoint c3Metrics c3Maze 50 50).isSome = true) ∧
    (∃ p fired, attemptMove c3Metrics c3Maze 50 50 (-100) 0 = .ok (p, fired) ∧
      (cellFromPoint c3Metrics c3Maze p.1 p.2).isSome = true) :=
  ⟨by with_unfolding_all decide,
   attemptMove_stays_in_grid c3Metrics c3Maze 50 50 (-100) 0 (by with_unfolding_all decide)⟩

/-! ### Determinism of generation -/

/-- C8: `generate(cols, rows, seed)` is deterministic — two runs with
the same dimensions and with seeds that agree as 32-bit values (the
source truncates with `seed >>> 0`) produce bit-identical passage masks
for every cell.  The generator consumes no state other than the
explicitly seeded `mulberry32` stream. -/
theorem generate_deterministic (cols rows s1 s2 : Nat) (h : s1 % m32 = s2 % m32) :
    ∀ i, generate cols rows s1 i = generate cols rows s2 i := by
  have hinit : genInit cols rows s1 = genInit cols rows s2 := by
    unfold genInit
    rw [h]
  intro i
  unfold generate
  rw [hinit]

/-- C8 witness: seeds 42 and 42 + 2^32 generate the same 2 × 2 maze;
the mask of cell 0 agrees. -/
theorem generate_deterministic_witness :
    (42 % m32 = 4294967338 % m32) ∧
    generate 2 2 42 0 = generate 2 2 4294967338 0 :=
  ⟨by decide, generate_deterministic 2 2 42 4294967338 (by decide) 0⟩

/-! ### Hurt-event rate limiting -/

theorem hurtFires_gt (ts : List ℚ) : ∀ (last : ℚ), ∀ t ∈ hurtFires last ts, last + 220 < t := by
  induction ts with
  | nil => intro last t ht; cases ht
  | cons now ts ih =>
    intro last t ht
    unfold hurtFires maybeHurt at ht
    by_cases hf : now - last > 220
    · rw [if_pos hf] at ht
      simp only [if_pos hf] at ht
      rcases List.mem_cons.1 ht with rfl | hmem
      · linarith
      · have := ih now t hmem
        linarith
    · rw [if_neg hf] at ht
      simp only [if_neg hf] at ht
      exact ih last t ht

theorem hurtFires_pairwise (ts : List ℚ) : ∀ (last : ℚ),
    (hurtFires last ts).Pairwise fun a b => 220 < b - a := by
  induction ts with
  | nil => intro last; exact List.Pairwise.nil
  | cons now ts ih =>
    intro last
    unfold hurtFires maybeHurt
    by_cases hf : now - last > 220
    · rw [if_pos hf]
      simp only [if_pos hf]
      refine List.Pairwise.cons ?_ (ih now)
      intro t ht
      have := hurtFires_gt ts now t ht
      linarith
    · rw [if_neg hf]
      simp only [if_neg hf]
      exact ih last

/-- C9: hurt rate limiting.  For any sequence of blocked-movement
timestamps consulted by `maybeHurt` (initial `lastHurtAt = 0` as in the
source), any two fired hurt events are more than 220 ms apart — the
event fires at most once per 220 ms window no matter how many blocked
attempts occur in between. -/
theorem hurt_rate_limited (ts : List ℚ) :
    (hurtFires 0 ts).Pairwise fun a b => 220 < b - a :=
  hurtFires_pairwise ts 0

/-! ### Goal events in the part_000 variant -/

/-- C3 (code bug in part_000): `animate` has no `won` latch, so the goal
event is not one-shot.  Running the concrete one-level event trace
`c3Trace` — reach the goal, chain one hop off it and one hop back —
makes `onGoal()` fire twice within a single level, while the claim (and
the spec, and the `won`-guarded loop of main.js) require at most one
goal event per level. -/
theorem variantA_goal_event_fires_twice :
    runAFires c3Metrics c3Maze c3Trace = .ok 2 := by
  with_unfolding_all rfl

/-! ### Grid indexing and neighbour lemmas -/

theorem nIdx_lt (cols rows x y : Nat) (hx : x < cols) (hy : y < rows) :
    nIdx cols x y < cols * rows := by
  unfold nIdx
  calc y * cols + x < y * cols + cols := by omega
    _ = (y + 1) * cols := by ring
    _ ≤ rows * cols := Nat.mul_le_mul_right cols (by omega)
    _ = cols * rows := Nat.mul_comm rows cols

theorem nIdx_mod (cols x y : Nat) (hx : x < cols) : nIdx cols x y % cols = x := by
  unfold nIdx
  rw [Nat.add_comm, Nat.add_mul_mod_self_right]
  exact Nat.mod_eq_of_lt hx

theorem nIdx_div (cols x y : Nat) (hx : x < cols) : nIdx cols x y / cols = y := by
  unfold nIdx
  have hc : 0 < cols := by omega
  rw [Nat.mul_comm y cols, Nat.mul_add_div hc, Nat.div_eq_of_lt hx]
  rfl

theorem nIdx_inj (cols : Nat) (x1 y1 x2 y2 : Nat) (hx1 : x1 < cols) (hx2 : x2 < cols)
    (h : nIdx cols x1 y1 = nIdx cols x2 y2) : x1 = x2 ∧ y1 = y2 := by
  have hm : x1 = x2 := by
    have := congrArg (· % cols) h
    simpa [nIdx_mod cols x1 y1 hx1, nIdx_mod cols x2 y2 hx2] using this
  have hd : y1 = y2 := by
    have := congrArg (· / cols) h
    simpa [nIdx_div cols x1 y1 hx1, nIdx_div cols x2 y2 hx2] using this
  exact ⟨hm, hd⟩

theorem nIdx_recover (cols rows i : Nat) (h : i < cols * rows) :
    i % cols < cols ∧ i / cols < rows ∧ nIdx cols (i % cols) (i / cols) = i := by
  have hc : 0 < cols := by
    rcases Nat.eq_zero_or_pos cols with h0 | h0
    · rw [h0, Nat.zero_mul] at h
      exact absurd h (Nat.not_lt_zero i)
    · exact h0
  refine ⟨Nat.mod_lt i hc, ?_, ?_⟩
  · rw [Nat.div_lt_iff_lt_mul hc, Nat.mul_comm rows cols]
    exact h
  · unfold nIdx
    rw [Nat.mul_comm (i / cols) cols]
    exact Nat.div_add_mod i cols

theorem nbr0 (cols rows x y : Nat) (h : 0 < y) :
    nbr cols rows x y 0 = some (x, y - 1) := by
  unfold nbr
  rw [if_pos h]

theorem nbr1 (cols rows x y : Nat) (h : x + 1 < cols) :
    nbr cols rows x y 1 = some (x + 1, y) := by
  unfold nbr
  rw [if_pos h]

theorem nbr2 (cols rows x y : Nat) (h : y + 1 < rows) :
    nbr cols rows x y 2 = some (x, y + 1) := by
  unfold nbr
  rw [if_pos h]

theorem nbr3 (cols rows x y : Nat) (h : 0 < x) :
    nbr cols rows x y 3 = some (x - 1, y) := by
  unfold nbr
  rw [if_pos h]

theorem nbr_char (cols rows x y d : Nat) (q : Nat × Nat)
    (h : nbr cols rows x y d = some q) :
    (d = 0 ∧ 0 < y ∧ q = (x, y - 1)) ∨ (d = 1 ∧ x + 1 < cols ∧ q = (x + 1, y)) ∨
    (d = 2 ∧ y + 1 < rows ∧ q = (x, y + 1)) ∨ (d = 3 ∧ 0 < x ∧ q = (x - 1, y)) := by
  match d with
  | 0 =>
    simp only [nbr] at h
    split at h
    · next hc =>
      injection h with h'
      exact Or.inl ⟨rfl, hc, h'.symm⟩
    · cases h
  | 1 =>
    simp only [nbr] at h
    split at h
    · next hc =>
      injection h with h'
      exact Or.inr (Or.inl ⟨rfl, hc, h'.symm⟩)
    · cases h
  | 2 =>
    simp only [nbr] at h
    split at h
    · next hc =>
      injection h with h'
      exact Or.inr (Or.inr (Or.inl ⟨rfl, hc, h'.symm⟩))
    · cases h
  | 3 =>
    simp only [nbr] at h
    split at h
    · next hc =>
      injection h with h'
      exact Or.inr (Or.inr (Or.inr ⟨rfl, hc, h'.symm⟩))
    · cases h
  | n + 4 =>
    simp only [nbr] at h
    cases h

theorem nbr_some_dir_lt (cols rows x y d : Nat) (q : Nat × Nat)
    (h : nbr cols rows x y d = some q) : d < 4 := by
  rcases nbr_char cols rows x y d q h with ⟨hd, _, _⟩ | ⟨hd, _, _⟩ | ⟨hd, _, _⟩ | ⟨hd, _, _⟩ <;>
    omega

theorem nbr_in_grid (cols rows x y d : Nat) (q : Nat × Nat) (hx : x < cols) (hy : y < rows)
    (h : nbr cols rows x y d = some q) : q.1 < cols ∧ q.2 < rows := by
  rcases nbr_char cols rows x y d q h with ⟨_, hc, rfl⟩ | ⟨_, hc, rfl⟩ | ⟨_, hc, rfl⟩ |
    ⟨_, hc, rfl⟩ <;> constructor <;> simp <;> omega

theorem nbr_ne (cols rows x y d : Nat) (q : Nat × Nat)
    (h : nbr cols rows x y d = some q) : q ≠ (x, y) := by
  rcases nbr_char cols rows x y d q h with ⟨_, hc, rfl⟩ | ⟨_, hc, rfl⟩ | ⟨_, hc, rfl⟩ |
    ⟨_, hc, rfl⟩ <;> simp [Prod.ext_iff] <;> omega

theorem nbr_symm (cols rows x y d : Nat) (q : Nat × Nat) (hx : x < cols) (hy : y < rows)
    (h : nbr cols rows x y d = some q) :
    nbr cols rows q.1 q.2 ((d + 2) % 4) = some (x, y) := by
  rcases nbr_char cols rows x y d q h with ⟨rfl, hc, rfl⟩ | ⟨rfl, hc, rfl⟩ | ⟨rfl, hc, rfl⟩ |
    ⟨rfl, hc, rfl⟩
  · show nbr cols rows x (y - 1) 2 = some (x, y)
    rw [nbr2 cols rows x (y - 1) (by omega)]
    rw [show y - 1 + 1 = y by omega]
  · show nbr cols rows (x + 1) y 3 = some (x, y)
    rw [nbr3 cols rows (x + 1) y (by omega)]
    rw [show x + 1 - 1 = x by omega]
  · show nbr cols rows x (y + 1) 0 = some (x, y)
    rw [nbr0 cols rows x (y + 1) (by omega)]
    rw [show y + 1 - 1 = y by omega]
  · show nbr cols rows (x - 1) y 1 = some (x, y)
    rw [nbr1 cols rows (x - 1) y (by omega)]
    rw [show x - 1 + 1 = x by omega]

theorem nbr_inj (cols rows x1 y1 x2 y2 d : Nat) (q : Nat × Nat)
    (h1 : nbr cols rows x1 y1 d = some q) (h2 : nbr cols rows x2 y2 d = some q) :
    x1 = x2 ∧ y1 = y2 := by
  rcases nbr_char cols rows x1 y1 d q h1 with ⟨hd, hc, rfl⟩ | ⟨hd, hc, rfl⟩ | ⟨hd, hc, rfl⟩ |
      ⟨hd, hc, rfl⟩ <;>
    rcases nbr_char cols rows x2 y2 d _ h2 with ⟨hd2, hc2, he⟩ | ⟨hd2, hc2, he⟩ |
      ⟨hd2, hc2, he⟩ | ⟨hd2, hc2, he⟩ <;>
    first
      | omega
      | (rw [Prod.ext_iff] at he
         simp only [] at he
         constructor <;> omega)

theorem mem_neighbors (cols rows x y : Nat) (nb : Nb) :
    nb ∈ neighbors cols rows x y ↔
      (nb.dir < 4 ∧ nbr cols rows x y nb.dir = some (nb.x, nb.y)) := by
  obtain ⟨nx, ny, nd⟩ := nb
  unfold neighbors
  simp only [List.mem_append, List.mem_singleton]
  constructor
  · intro hmem
    rcases hmem with ((h | h) | h) | h
    · split at h
      · next hc =>
        cases List.mem_singleton.1 h
        exact ⟨by omega, nbr0 cols rows x y hc⟩
      · cases h
    · split at h
      · next hc =>
        cases List.mem_singleton.1 h
        exact ⟨by omega, nbr1 cols rows x y hc⟩
      · cases h
    · split at h
      · next hc =>
        cases List.mem_singleton.1 h
        exact ⟨by omega, nbr2 cols rows x y hc⟩
      · cases h
    · split at h
      · next hc =>
        cases List.mem_singleton.1 h
        exact ⟨by omega, nbr3 cols rows x y hc⟩
      · cases h
  · rintro ⟨hd4, hn⟩
    rcases nbr_char cols rows x y nd (nx, ny) hn with ⟨hd, hc, he⟩ | ⟨hd, hc, he⟩ |
      ⟨hd, hc, he⟩ | ⟨hd, hc, he⟩ <;> subst hd <;>
      rw [Prod.ext_iff] at he <;> simp only [] at he <;>
      obtain ⟨he1, he2⟩ := he <;> subst he1 <;> subst he2
    · exact Or.inl (Or.inl (Or.inl (by rw [if_pos hc]; exact List.mem_singleton.2 rfl)))
    · exact Or.inl (Or.inl (Or.inr (by rw [if_pos hc]; exact List.mem_singleton.2 rfl)))
    · exact Or.inl (Or.inr (by rw [if_pos hc]; exact List.mem_singleton.2 rfl))
    · exact Or.inr (by rw [if_pos hc]; exact List.mem_singleton.2 rfl)

/-! ### Passage-mask bit lemmas -/

theorem isOpen_eq_testBit (mask d : Nat) : isOpen mask d = mask.testBit d := by
  unfold isOpen
  rw [Nat.shiftLeft_eq, one_mul, Nat.and_two_pow]
  cases h : mask.testBit d
  · simp
  · simp [(Nat.two_pow_pos d).ne']

theorem isOpen_zero (d : Nat) : isOpen 0 d = false := by
  rw [isOpen_eq_testBit]
  exact Nat.zero_testBit d

theorem isOpen_openDir (mask e d : Nat) :
    isOpen (openDir mask e) d = (isOpen mask d || decide (d = e)) := by
  unfold openDir
  rw [isOpen_eq_testBit, isOpen_eq_testBit, Nat.shiftLeft_eq, one_mul, Nat.testBit_or]
  by_cases h : d = e
  · subst h
    rw [Nat.testBit_two_pow_self]
    simp
  · rw [Nat.testBit_two_pow_of_ne (fun he => h he.symm)]
    simp [h]

theorem isOpen_updMask (g : Nat → Nat) (i d j e : Nat) :
    isOpen (updMask g i d j) e =
      (isOpen (g j) e || (decide (j = i) && decide (e = d))) := by
  unfold updMask
  by_cases h : j = i
  · subst h
    rw [if_pos rfl, isOpen_openDir]
    simp
  · rw [if_neg h]
    simp [h]

theorem isOpen_carve (cols : Nat) (g : Nat → Nat) (cx cy : Nat) (nb : Nb) (j e : Nat) :
    isOpen (carve cols g cx cy nb j) e =
      (isOpen (g j) e ||
       (decide (j = nIdx cols cx cy) && decide (e = nb.dir)) ||
       (decide (j = nIdx cols nb.x nb.y) && decide (e = (nb.dir + 2) % 4))) := by
  unfold carve
  rw [isOpen_updMask, isOpen_updMask]

theorem isOpen_carve_iff (cols : Nat) (g : Nat → Nat) (cx cy : Nat) (nb : Nb) (j e : Nat) :
    isOpen (carve cols g cx cy nb j) e = true ↔
      (isOpen (g j) e = true ∨ (j = nIdx cols cx cy ∧ e = nb.dir) ∨
       (j = nIdx cols nb.x nb.y ∧ e = (nb.dir + 2) % 4)) := by
  rw [isOpen_carve]
  simp [or_assoc]

theorem isOpen_carve_mono (cols : Nat) (g : Nat → Nat) (cx cy : Nat) (nb : Nb) (j e : Nat)
    (h : isOpen (g j) e = true) : isOpen (carve cols g cx cy nb j) e = true :=
  (isOpen_carve_iff cols g cx cy nb j e).2 (Or.inl h)

/-! ### Open-passage adjacency lemmas -/

theorem adjHalf_iff (cols rows : Nat) (g : Nat → Nat) (i j d : Nat) :
    adjHalf cols rows g i j d = true ↔
      ∃ q, nbr cols rows (i % cols) (i / cols) d = some q ∧ nIdx cols q.1 q.2 = j ∧
        isOpen (g i) d = true ∧ isOpen (g j) ((d + 2) % 4) = true := by
  unfold adjHalf
  cases hq : nbr cols rows (i % cols) (i / cols) d with
  | none => simp
  | some q =>
    simp only [Bool.and_eq_true, decide_eq_true_eq]
    constructor
    · rintro ⟨⟨h1, h2⟩, h3⟩
      exact ⟨q, rfl, h1, h2, h3⟩
    · rintro ⟨q2, hq2, h1, h2, h3⟩
      cases hq2
      exact ⟨⟨h1, h2⟩, h3⟩

theorem adjB_iff (cols rows : Nat) (g : Nat → Nat) (i j : Nat) :
    adjB cols rows g i j = true ↔
      ∃ d, d < 4 ∧ adjHalf cols rows g i j d = true := by
  unfold adjB
  simp only [Bool.or_eq_true]
  constructor
  · rintro (((h | h) | h) | h)
    · exact ⟨0, by omega, h⟩
    · exact ⟨1, by omega, h⟩
    · exact ⟨2, by omega, h⟩
    · exact ⟨3, by omega, h⟩
  · rintro ⟨d, hd4, h⟩
    match d with
    | 0 => exact Or.inl (Or.inl (Or.inl h))
    | 1 => exact Or.inl (Or.inl (Or.inr h))
    | 2 => exact Or.inl (Or.inr h)
    | 3 => exact Or.inr h

theorem adjB_target (cols rows : Nat) (g : Nat → Nat) (i j : Nat)
    (hi : i < cols * rows) (h : adjB cols rows g i j = true) :
    j < cols * rows ∧ i ≠ j := by
  obtain ⟨d, hd4, hh⟩ := (adjB_iff cols rows g i j).1 h
  obtain ⟨q, hq, hj, _, _⟩ := (adjHalf_iff cols rows g i j d).1 hh
  obtain ⟨hxm, hyd, hrec⟩ := nIdx_recover cols rows i hi
  obtain ⟨hq1, hq2⟩ := nbr_in_grid cols rows (i % cols) (i / cols) d q hxm hyd hq
  refine ⟨hj ▸ nIdx_lt cols rows q.1 q.2 hq1 hq2, fun hij => ?_⟩
  have hqne := nbr_ne cols rows (i % cols) (i / cols) d q hq
  have hj2 : nIdx cols q.1 q.2 = nIdx cols (i % cols) (i / cols) := by
    rw [hj, ← hij, hrec]
  obtain ⟨e1, e2⟩ := nIdx_inj cols q.1 q.2 (i % cols) (i / cols) hq1 hxm hj2
  exact hqne (Prod.ext e1 e2)

theorem adjB_carve_mono (cols rows : Nat) (g : Nat → Nat) (cx cy : Nat) (nb : Nb)
    (i j : Nat) (h : adjB cols rows g i j = true) :
    adjB cols rows (carve cols g cx cy nb) i j = true := by
  obtain ⟨d, hd4, hh⟩ := (adjB_iff cols rows g i j).1 h
  obtain ⟨q, hq, hj, hb1, hb2⟩ := (adjHalf_iff cols rows g i j d).1 hh
  exact (adjB_iff cols rows _ i j).2 ⟨d, hd4, (adjHalf_iff cols rows _ i j d).2
    ⟨q, hq, hj, isOpen_carve_mono cols g cx cy nb i d hb1,
     isOpen_carve_mono cols g cx cy nb j ((d + 2) % 4) hb2⟩⟩

theorem reach_carve_mono (cols rows : Nat) (g : Nat → Nat) (cx cy : Nat) (nb : Nb)
    (i j : Nat) (h : Reach cols rows g i j) :
    Reach cols rows (carve cols g cx cy nb) i j :=
  Relation.ReflTransGen.mono (fun a b hab => adjB_carve_mono cols rows g cx cy nb a b hab) h

/-! ### Counting open passage pairs -/

theorem isOpen_updMask2_iff (g : Nat → Nat) (i1 d1 i2 d2 j e : Nat) :
    isOpen (updMask (updMask g i1 d1) i2 d2 j) e = true ↔
      (isOpen (g j) e = true ∨ (j = i1 ∧ e = d1) ∨ (j = i2 ∧ e = d2)) := by
  rw [isOpen_updMask, isOpen_updMask]
  simp [or_assoc]

theorem updMask_comm (g : Nat → Nat) (i1 d1 i2 d2 : Nat) (h : i1 ≠ i2) :
    updMask (updMask g i1 d1) i2 d2 = updMask (updMask g i2 d2) i1 d1 := by
  funext j
  unfold updMask
  by_cases h1 : j = i1 <;> by_cases h2 : j = i2
  · exact absurd (h1.symm.trans h2) h
  · simp [h1, h2, h, Ne.symm h]
  · simp [h1, h2, h, Ne.symm h]
  · simp [h1, h2]

theorem carve_idx_ne (cols rows cx cy : Nat) (nb : Nb) (hcx : cx < cols) (hcy : cy < rows)
    (hn : nbr cols rows cx cy nb.dir = some (nb.x, nb.y)) :
    nIdx cols cx cy ≠ nIdx cols nb.x nb.y := by
  intro he
  obtain ⟨hq1, hq2⟩ := nbr_in_grid cols rows cx cy nb.dir (nb.x, nb.y) hcx hcy hn
  obtain ⟨e1, e2⟩ := nIdx_inj cols cx cy nb.x nb.y hcx hq1 he
  exact nbr_ne cols rows cx cy nb.dir (nb.x, nb.y) hn (Prod.ext e1.symm e2.symm)

theorem openPair_iff (cols rows : Nat) (g : Nat → Nat) (x y d : Nat) :
    openPair cols rows g x y d = true ↔
      (isOpen (g (nIdx cols x y)) d = true ∧
       ∃ r, nbr cols rows x y d = some r ∧
         isOpen (g (nIdx cols r.1 r.2)) ((d + 2) % 4) = true) := by
  unfold openPair
  cases hr : nbr cols rows x y d with
  | none => simp
  | some r =>
    simp only [Bool.and_eq_true]
    constructor
    · rintro ⟨h1, h2⟩
      exact ⟨h1, r, rfl, h2⟩
    · rintro ⟨h1, r2, hr2, h2⟩
      cases hr2
      exact ⟨h1, h2⟩

theorem mem_pairSet (cols rows : Nat) (g : Nat → Nat) (e : (Nat × Nat) × Nat) :
    e ∈ pairSet cols rows g ↔
      (e.1.1 < cols ∧ e.1.2 < rows ∧ (e.2 = 1 ∨ e.2 = 2) ∧
       openPair cols rows g e.1.1 e.1.2 e.2 = true) := by
  unfold pairSet
  rw [Finset.mem_filter, Finset.mem_product, Finset.mem_product]
  simp only [Finset.mem_range, Finset.mem_insert, Finset.mem_singleton]
  tauto

theorem pairSet_canon (cols rows : Nat) (g : Nat → Nat) (px py qx qy dc : Nat)
    (hpx : px < cols) (hpy : py < rows) (hdc : dc = 1 ∨ dc = 2)
    (hq : nbr cols rows px py dc = some (qx, qy))
    (hnot : isOpen (g (nIdx cols px py)) dc = false ∨
      isOpen (g (nIdx cols qx qy)) ((dc + 2) % 4) = false) :
    pairSet cols rows
        (updMask (updMask g (nIdx cols px py) dc) (nIdx cols qx qy) ((dc + 2) % 4)) =
      insert ((px, py), dc) (pairSet cols rows g) ∧
    ((px, py), dc) ∉ pairSet cols rows g := by
  have hqgrid := nbr_in_grid cols rows px py dc (qx, qy) hpx hpy hq
  constructor
  · ext e
    obtain ⟨⟨a, b⟩, d⟩ := e
    rw [Finset.mem_insert, mem_pairSet, mem_pairSet]
    constructor
    · rintro ⟨ha, hb, hd12, hop⟩
      rw [openPair_iff] at hop
      obtain ⟨hX, r, hr, hY⟩ := hop
      rw [isOpen_updMask2_iff] at hX hY
      rcases hX with hXold | ⟨hXi, hXd⟩ | ⟨hXi, hXd⟩
      · rcases hY with hYold | ⟨hYi, hYd⟩ | ⟨hYi, hYd⟩
        · exact Or.inr ⟨ha, hb, hd12, (openPair_iff cols rows g a b d).2 ⟨hXold, r, hr, hYold⟩⟩
        · exact absurd hYd (by omega)
        · have hddc : d = dc := by omega
          subst hddc
          have hrgrid := nbr_in_grid cols rows a b d r ha hb hr
          obtain ⟨er1, er2⟩ := nIdx_inj cols r.1 r.2 qx qy hrgrid.1 hqgrid.1 hYi
          have hrq : r = (qx, qy) := Prod.ext er1 er2
          rw [hrq] at hr
          obtain ⟨ea, eb⟩ := nbr_inj cols rows a b px py d (qx, qy) hr hq
          subst ea
          subst eb
          exact Or.inl rfl
      · obtain ⟨ea, eb⟩ := nIdx_inj cols a b px py ha hpx hXi
        subst ea
        subst eb
        subst hXd
        exact Or.inl rfl
      · exact absurd hXd (by omega)
    · rintro (heq | ⟨ha, hb, hd12, hop⟩)
      · injection heq with heq1 heq2
        injection heq1 with heqa heqb
        subst heqa
        subst heqb
        subst heq2
        refine ⟨hpx, hpy, hdc, (openPair_iff cols rows _ _ _ _).2 ⟨?_, (qx, qy), hq, ?_⟩⟩
        · exact (isOpen_updMask2_iff g _ _ _ _ _ _).2 (Or.inr (Or.inl ⟨rfl, rfl⟩))
        · exact (isOpen_updMask2_iff g _ _ _ _ _ _).2 (Or.inr (Or.inr ⟨rfl, rfl⟩))
      · rw [openPair_iff] at hop
        obtain ⟨hX, r, hr, hY⟩ := hop
        refine ⟨ha, hb, hd12, (openPair_iff cols rows _ a b d).2
          ⟨(isOpen_updMask2_iff g _ _ _ _ _ d).2 (Or.inl hX), r, hr,
           (isOpen_updMask2_iff g _ _ _ _ _ _).2 (Or.inl hY)⟩⟩
  · intro hmem
    rw [mem_pairSet] at hmem
    obtain ⟨_, _, _, hop⟩ := hmem
    rw [openPair_iff] at hop
    obtain ⟨hX, r, hr, hY⟩ := hop
    rw [hq] at hr
    injection hr with hr
    subst hr
    rcases hnot with hn1 | hn2
    · rw [hX] at hn1
      cases hn1
    · rw [hY] at hn2
      cases hn2

theorem pairCount_carve (cols rows : Nat) (g : Nat → Nat) (cx cy : Nat) (nb : Nb)
    (hcx : cx < cols) (hcy : cy < rows) (hd4 : nb.dir < 4)
    (hn : nbr cols rows cx cy nb.dir = some (nb.x, nb.y))
    (hfresh : g (nIdx cols nb.x nb.y) = 0)
    (hclosed : isOpen (g (nIdx cols cx cy)) nb.dir = false) :
    pairCount cols rows (carve cols g cx cy nb) = pairCount cols rows g + 1 := by
  have hne := carve_idx_ne cols rows cx cy nb hcx hcy hn
  have hngrid := nbr_in_grid cols rows cx cy nb.dir (nb.x, nb.y) hcx hcy hn
  have hfreshbit : ∀ e, isOpen (g (nIdx cols nb.x nb.y)) e = false := by
    intro e
    rw [hfresh]
    exact isOpen_zero e
  have hsym := nbr_symm cols rows cx cy nb.dir (nb.x, nb.y) hcx hcy hn
  unfold pairCount
  match hdir : nb.dir with
  | 1 =>
    obtain ⟨hset, hnm⟩ := pairSet_canon cols rows g cx cy nb.x nb.y 1 hcx hcy (Or.inl rfl)
      (hdir ▸ hn) (Or.inl (hdir ▸ hclosed))
    unfold carve
    rw [hdir, hset, Finset.card_insert_of_not_mem hnm]
  | 2 =>
    obtain ⟨hset, hnm⟩ := pairSet_canon cols rows g cx cy nb.x nb.y 2 hcx hcy (Or.inr rfl)
      (hdir ▸ hn) (Or.inl (hdir ▸ hclosed))
    unfold carve
    rw [hdir, hset, Finset.card_insert_of_not_mem hnm]
  | 0 =>
    obtain ⟨hset, hnm⟩ := pairSet_canon cols rows g nb.x nb.y cx cy 2 hngrid.1 hngrid.2
      (Or.inr rfl) (by simpa [hdir] using hsym) (Or.inl (hfreshbit 2))
    rw [show ((2 : Nat) + 2) % 4 = 0 from rfl] at hset
    unfold carve
    rw [hdir]
    rw [show ((0 : Nat) + 2) % 4 = 2 from rfl]
    rw [updMask_comm g _ 0 _ 2 hne]
    rw [hset, Finset.card_insert_of_not_mem hnm]
  | 3 =>
    obtain ⟨hset, hnm⟩ := pairSet_canon cols rows g nb.x nb.y cx cy 1 hngrid.1 hngrid.2
      (Or.inl rfl) (by simpa [hdir] using hsym) (Or.inl (hfreshbit 1))
    rw [show ((1 : Nat) + 2) % 4 = 3 from rfl] at hset
    unfold carve
    rw [hdir]
    rw [show ((3 : Nat) + 2) % 4 = 1 from rfl]
    rw [updMask_comm g _ 3 _ 1 hne]
    rw [hset, Finset.card_insert_of_not_mem hnm]
  | n + 4 => omega

/-! ### Acyclicity: adding a pendant edge preserves it -/

theorem exists_rev_edge {V : Type} {G : SimpleGraph V} :
    ∀ {a b : V} (p : G.Walk a b), a ≠ b → ∃ y, G.Adj y b ∧ s(y, b) ∈ p.edges := by
  intro a b p
  induction p with
  | nil => intro hab; exact absurd rfl hab
  | @cons u v w h q ih =>
    intro hab
    by_cases hvw : v = w
    · subst hvw
      exact ⟨u, h, by simp [SimpleGraph.Walk.edges_cons]⟩
    · obtain ⟨y, hy, hmem⟩ := ih hvw
      exact ⟨y, hy, by simp [SimpleGraph.Walk.edges_cons, hmem]⟩

theorem isAcyclic_add_pendant {V : Type} [DecidableEq V] {G G2 : SimpleGraph V} {u v : V}
    (huv : u ≠ v) (hGv : ∀ w, ¬ G.Adj v w)
    (hadj : ∀ a b, G2.Adj a b ↔ (G.Adj a b ∨ (a = u ∧ b = v) ∨ (a = v ∧ b = u)))
    (hG : G.IsAcyclic) : G2.IsAcyclic := by
  intro w c hc
  by_cases hv : v ∈ c.support
  · have hc2 := hc.rotate hv
    generalize c.rotate hv = c2 at hc2
    cases c2 with
    | nil => exact hc2.ne_nil rfl
    | @cons _ x _ hadj1 p =>
      rw [SimpleGraph.Walk.cons_isCycle_iff] at hc2
      obtain ⟨hpath, hnotmem⟩ := hc2
      have hx : x = u := by
        rcases (hadj _ _).1 hadj1 with hG1 | ⟨hvu, _⟩ | ⟨_, hxu⟩
        · exact absurd hG1 (hGv _)
        · exact absurd hvu.symm huv
        · exact hxu
      obtain ⟨y, hy, hmem⟩ := exists_rev_edge p (by rw [hx]; exact huv)
      have hyu : y = u := by
        rcases (hadj _ _).1 hy with hG1 | ⟨hyu, _⟩ | ⟨hyv, hvu⟩
        · exact absurd hG1.symm (hGv _)
        · exact hyu
        · exact absurd hvu.symm huv
      rw [hyu, ← hx] at hmem
      rw [Sym2.eq_swap] at hmem
      exact hnotmem hmem
  · have hedges : ∀ e ∈ c.edges, e ∈ G.edgeSet := by
      intro e
      induction e using Sym2.ind with
      | _ x y =>
        intro he
        have hadj2 := SimpleGraph.Walk.adj_of_mem_edges c he
        have hxs := SimpleGraph.Walk.fst_mem_support_of_mem_edges c he
        have hys := SimpleGraph.Walk.snd_mem_support_of_mem_edges c he
        rcases (hadj _ _).1 hadj2 with hG1 | ⟨rfl, rfl⟩ | ⟨rfl, rfl⟩
        · exact (SimpleGraph.mem_edgeSet G).2 hG1
        · exact absurd hys hv
        · exact absurd hxs hv
    exact hG (c.transfer G hedges) (hc.transfer hedges)

/-! ### The effect of one carve on the passage graph -/

theorem nIdx_mod_div_self (cols i : Nat) : nIdx cols (i % cols) (i / cols) = i := by
  unfold nIdx
  rw [Nat.mul_comm (i / cols) cols]
  exact Nat.div_add_mod i cols

theorem nbr_fst_lt (cols rows x y d : Nat) (q : Nat × Nat) (hx : x < cols)
    (h : nbr cols rows x y d = some q) : q.1 < cols := by
  rcases nbr_char cols rows x y d q h with ⟨_, hc, rfl⟩ | ⟨_, hc, rfl⟩ | ⟨_, hc, rfl⟩ |
    ⟨_, hc, rfl⟩ <;> simp <;> omega

theorem adjB_carve_iff (cols rows : Nat) (g : Nat → Nat) (cx cy : Nat) (nb : Nb)
    (hcx : cx < cols) (hcy : cy < rows) (hd4 : nb.dir < 4)
    (hn : nbr cols rows cx cy nb.dir = some (nb.x, nb.y))
    (hfresh : g (nIdx cols nb.x nb.y) = 0)
    (hclosed : isOpen (g (nIdx cols cx cy)) nb.dir = false) (i j : Nat) :
    adjB cols rows (carve cols g cx cy nb) i j = true ↔
      (adjB cols rows g i j = true ∨
       (i = nIdx cols cx cy ∧ j = nIdx cols nb.x nb.y) ∨
       (i = nIdx cols nb.x nb.y ∧ j = nIdx cols cx cy)) := by
  have hngrid := nbr_in_grid cols rows cx cy nb.dir (nb.x, nb.y) hcx hcy hn
  have hsym := nbr_symm cols rows cx cy nb.dir (nb.x, nb.y) hcx hcy hn
  constructor
  · intro h
    obtain ⟨d, hdd4, hh⟩ := (adjB_iff cols rows _ i j).1 h
    obtain ⟨q, hq, hj, hX, hY⟩ := (adjHalf_iff cols rows _ i j d).1 hh
    rcases (isOpen_carve_iff cols g cx cy nb i d).1 hX with hXold | ⟨hXi, hXd⟩ | ⟨hXi, hXd⟩
    · rcases (isOpen_carve_iff cols g cx cy nb j ((d + 2) % 4)).1 hY with
        hYold | ⟨hYj, hYd⟩ | ⟨hYj, hYd⟩
      · exact Or.inl ((adjB_iff cols rows g i j).2 ⟨d, hdd4,
          (adjHalf_iff cols rows g i j d).2 ⟨q, hq, hj, hXold, hYold⟩⟩)
      · -- j = ci and (d+2)%4 = nb.dir: forces i = ni, whose mask is zero
        exfalso
        have hdeq : d = (nb.dir + 2) % 4 := by omega
        subst hdeq
        have hq1lt : q.1 < cols := nbr_fst_lt cols rows (i % cols) (i / cols) _ q
          (Nat.mod_lt i (by omega)) hq
        have hqc : q = (cx, cy) := by
          have := nIdx_inj cols q.1 q.2 cx cy hq1lt hcx (by rw [hj, hYj])
          exact Prod.ext this.1 this.2
        rw [hqc] at hq
        obtain ⟨e1, e2⟩ := nbr_inj cols rows (i % cols) (i / cols) nb.x nb.y _ (cx, cy) hq hsym
        have hi : i = nIdx cols nb.x nb.y := by
          rw [← nIdx_mod_div_self cols i, e1, e2]
        rw [hi, hfresh, isOpen_zero] at hXold
        cases hXold
      · -- j = ni and (d+2)%4 = (nb.dir+2)%4: forces i = ci, whose bit is closed
        exfalso
        have hdeq : d = nb.dir := by omega
        subst hdeq
        have hq1lt : q.1 < cols := nbr_fst_lt cols rows (i % cols) (i / cols) _ q
          (Nat.mod_lt i (by omega)) hq
        have hqc : q = (nb.x, nb.y) := by
          have := nIdx_inj cols q.1 q.2 nb.x nb.y hq1lt hngrid.1 (by rw [hj, hYj])
          exact Prod.ext this.1 this.2
        rw [hqc] at hq
        obtain ⟨e1, e2⟩ := nbr_inj cols rows (i % cols) (i / cols) cx cy _ (nb.x, nb.y) hq hn
        have hi : i = nIdx cols cx cy := by
          rw [← nIdx_mod_div_self cols i, e1, e2]
        rw [hi] at hXold
        rw [hXold] at hclosed
        cases hclosed
    · -- i's bit is the fresh ci bit
      subst hXd
      have hiC : i % cols = cx ∧ i / cols = cy := by
        rw [hXi]
        exact ⟨nIdx_mod cols cx cy hcx, nIdx_div cols cx cy hcx⟩
      rw [hiC.1, hiC.2, hn] at hq
      injection hq with hq
      rw [← hq] at hj
      exact Or.inr (Or.inl ⟨hXi, hj.symm⟩)
    · -- i's bit is the fresh ni bit
      subst hXd
      have hiC : i % cols = nb.x ∧ i / cols = nb.y := by
        rw [hXi]
        exact ⟨nIdx_mod cols nb.x nb.y hngrid.1, nIdx_div cols nb.x nb.y hngrid.1⟩
      rw [hiC.1, hiC.2, hsym] at hq
      injection hq with hq
      rw [← hq] at hj
      exact Or.inr (Or.inr ⟨hXi, hj.symm⟩)
  · intro h
    rcases h with hold | ⟨hi, hj⟩ | ⟨hi, hj⟩
    · exact adjB_carve_mono cols rows g cx cy nb i j hold
    · subst hi
      subst hj
      refine (adjB_iff cols rows _ _ _).2 ⟨nb.dir, hd4, (adjHalf_iff cols rows _ _ _ _).2
        ⟨(nb.x, nb.y), ?_, rfl, ?_, ?_⟩⟩
      · rw [nIdx_mod cols cx cy hcx, nIdx_div cols cx cy hcx]
        exact hn
      · exact (isOpen_carve_iff cols g cx cy nb _ _).2 (Or.inr (Or.inl ⟨rfl, rfl⟩))
      · exact (isOpen_carve_iff cols g cx cy nb _ _).2 (Or.inr (Or.inr ⟨rfl, rfl⟩))
    · subst hi
      subst hj
      have hopp : ((nb.dir + 2) % 4 + 2) % 4 = nb.dir := by omega
      refine (adjB_iff cols rows _ _ _).2 ⟨(nb.dir + 2) % 4, by omega,
        (adjHalf_iff cols rows _ _ _ _).2 ⟨(cx, cy), ?_, rfl, ?_, ?_⟩⟩
      · rw [nIdx_mod cols nb.x nb.y hngrid.1, nIdx_div cols nb.x nb.y hngrid.1]
        exact hsym
      · exact (isOpen_carve_iff cols g cx cy nb _ _).2 (Or.inr (Or.inr ⟨rfl, rfl⟩))
      · rw [hopp]
        exact (isOpen_carve_iff cols g cx cy nb _ _).2 (Or.inr (Or.inl ⟨rfl, rfl⟩))

theorem passageGraph_adj (cols rows : Nat) (g : Nat → Nat) (a b : Fin (cols * rows)) :
    (passageGraph cols rows g).Adj a b ↔
      (a ≠ b ∧ (adjB cols rows g (a : Nat) (b : Nat) = true ∨
        adjB cols rows g (b : Nat) (a : Nat) = true)) :=
  Iff.rfl

theorem acyclic_zero_adj (cols rows : Nat) (g : Nat → Nat)
    (hz : ∀ i d, isOpen (g i) d = false) : (passageGraph cols rows g).IsAcyclic := by
  intro v c hc
  cases c with
  | nil => exact hc.ne_nil rfl
  | cons h p =>
    rcases h.2 with hb | hb <;>
    · obtain ⟨d, _, hh⟩ := (adjB_iff cols rows g _ _).1 hb
      obtain ⟨q, _, _, hbit, _⟩ := (adjHalf_iff cols rows g _ _ d).1 hh
      rw [hz _ d] at hbit
      cases hbit

theorem acyclic_carve (cols rows : Nat) (g : Nat → Nat) (cx cy : Nat) (nb : Nb)
    (hcx : cx < cols) (hcy : cy < rows) (hd4 : nb.dir < 4)
    (hn : nbr cols rows cx cy nb.dir = some (nb.x, nb.y))
    (hfresh : g (nIdx cols nb.x nb.y) = 0)
    (hclosed : isOpen (g (nIdx cols cx cy)) nb.dir = false)
    (hacy : (passageGraph cols rows g).IsAcyclic) :
    (passageGraph cols rows (carve cols g cx cy nb)).IsAcyclic := by
  have hngrid := nbr_in_grid cols rows cx cy nb.dir (nb.x, nb.y) hcx hcy hn
  have hci : nIdx cols cx cy < cols * rows := nIdx_lt cols rows cx cy hcx hcy
  have hni : nIdx cols nb.x nb.y < cols * rows := nIdx_lt cols rows nb.x nb.y hngrid.1 hngrid.2
  have hne : nIdx cols cx cy ≠ nIdx cols nb.x nb.y := carve_idx_ne cols rows cx cy nb hcx hcy hn
  refine @isAcyclic_add_pendant (Fin (cols * rows)) _ (passageGraph cols rows g)
    (passageGraph cols rows (carve cols g cx cy nb))
    ⟨nIdx cols cx cy, hci⟩ ⟨nIdx cols nb.x nb.y, hni⟩ ?_ ?_ ?_ hacy
  · intro hfe
    exact hne (congrArg Fin.val hfe)
  · intro w hw
    rcases hw.2 with hb | hb
    · obtain ⟨d, _, hh⟩ := (adjB_iff cols rows g _ _).1 hb
      obtain ⟨q, _, _, hbit, _⟩ := (adjHalf_iff cols rows g _ _ d).1 hh
      rw [hfresh, isOpen_zero] at hbit
      cases hbit
    · obtain ⟨d, _, hh⟩ := (adjB_iff cols rows g _ _).1 hb
      obtain ⟨q, _, _, _, hbit⟩ := (adjHalf_iff cols rows g _ _ d).1 hh
      rw [hfresh, isOpen_zero] at hbit
      cases hbit
  · intro a b
    rw [passageGraph_adj, passageGraph_adj]
    rw [adjB_carve_iff cols rows g cx cy nb hcx hcy hd4 hn hfresh hclosed (a : Nat) (b : Nat)]
    rw [adjB_carve_iff cols rows g cx cy nb hcx hcy hd4 hn hfresh hclosed (b : Nat) (a : Nat)]
    have hfe : ∀ (u2 v2 : Fin (cols * rows)), u2 = v2 ↔ (u2 : Nat) = (v2 : Nat) := by
      intro u2 v2
      exact Fin.ext_iff
    constructor
    · rintro ⟨hab, hor⟩
      rcases hor with (h1 | h2 | h3) | (h1 | h2 | h3)
      · exact Or.inl ⟨hab, Or.inl h1⟩
      · exact Or.inr (Or.inl ⟨(hfe _ _).2 h2.1, (hfe _ _).2 h2.2⟩)
      · exact Or.inr (Or.inr ⟨(hfe _ _).2 h3.1, (hfe _ _).2 h3.2⟩)
      · exact Or.inl ⟨hab, Or.inr h1⟩
      · exact Or.inr (Or.inr ⟨(hfe _ _).2 h2.2, (hfe _ _).2 h2.1⟩)
      · exact Or.inr (Or.inl ⟨(hfe _ _).2 h3.2, (hfe _ _).2 h3.1⟩)
    · rintro (⟨hab, hor⟩ | ⟨ha, hb⟩ | ⟨ha, hb⟩)
      · rcases hor with h1 | h1
        · exact ⟨hab, Or.inl (Or.inl h1)⟩
        · exact ⟨hab, Or.inr (Or.inl h1)⟩
      · subst ha
        subst hb
        refine ⟨?_, Or.inl (Or.inr (Or.inl ⟨rfl, rfl⟩))⟩
        intro hfeq
        exact hne (congrArg Fin.val hfeq)
      · subst ha
        subst hb
        refine ⟨?_, Or.inl (Or.inr (Or.inr ⟨rfl, rfl⟩))⟩
        intro hfeq
        exact hne (congrArg Fin.val hfeq).symm

/-! ### One step of the generation loop -/

theorem getD_mem {α : Type} (l : List α) (k : Nat) (d : α) (h : k < l.length) :
    l.getD k d ∈ l := by
  rw [List.getD_eq_getElem l d h]
  exact List.getElem_mem h

theorem m32_eq : m32 = 2 ^ 32 := rfl

theorem m32_pos : (0:Nat) < m32 := by
  rw [m32_eq]
  exact Nat.two_pow_pos 32

theorem xor_mods_lt (x y : Nat) : (x % m32) ^^^ (y % m32) < m32 := by
  rw [m32_eq]
  exact Nat.xor_lt_two_pow (Nat.mod_lt _ m32_pos) (Nat.mod_lt _ m32_pos)

theorem xor_shiftRight_lt (t k : Nat) (h : t < m32) : t ^^^ (t >>> k) < m32 := by
  rw [m32_eq] at h ⊢
  refine Nat.xor_lt_two_pow h (lt_of_le_of_lt ?_ h)
  rw [Nat.shiftRight_eq_div_pow]
  exact Nat.div_le_self t (2 ^ k)

theorem mulberry_out_lt (a : Nat) : (mulberryStep a).2 < m32 :=
  xor_shiftRight_lt _ 14 (xor_mods_lt _ _)

theorem randIndex_lt (out len : Nat) (hout : out < m32) (hlen : 0 < len) :
    randIndex out len < len := by
  unfold randIndex
  rw [Nat.div_lt_iff_lt_mul m32_pos]
  calc out * len < m32 * len := (Nat.mul_lt_mul_right hlen).2 hout
    _ = len * m32 := Nat.mul_comm m32 len

theorem genStep_cases (cols rows : Nat) (s : GenState) :
    (s.stack = [] ∧ genStep cols rows s = s) ∨
    (∃ cur rest, s.stack = cur :: rest ∧
      (neighbors cols rows cur.1 cur.2).filter
        (fun nb => decide (nIdx cols nb.x nb.y ∉ s.visited)) = [] ∧
      genStep cols rows s = { s with stack := rest }) ∨
    (∃ cur rest nb rng2, s.stack = cur :: rest ∧
      nb ∈ (neighbors cols rows cur.1 cur.2).filter
        (fun nb2 => decide (nIdx cols nb2.x nb2.y ∉ s.visited)) ∧
      genStep cols rows s = GenState.mk (carve cols s.grid cur.1 cur.2 nb)
        ((nb.x, nb.y) :: s.stack) (insert (nIdx cols nb.x nb.y) s.visited) rng2) := by
  rcases hst : s.stack with _ | ⟨cur, rest⟩
  · refine Or.inl ⟨rfl, ?_⟩
    unfold genStep
    rw [hst]
  · cases hunv : (neighbors cols rows cur.1 cur.2).filter
        (fun nb => decide (nIdx cols nb.x nb.y ∉ s.visited)) with
    | nil =>
      refine Or.inr (Or.inl ⟨cur, rest, rfl, hunv, ?_⟩)
      unfold genStep
      rw [hst]
      simp only [hunv]
    | cons nb0 l =>
      refine Or.inr (Or.inr ⟨cur, rest,
        (nb0 :: l).getD (randIndex (mulberryStep s.rng).2 (nb0 :: l).length) ⟨0, 0, 0⟩,
        (mulberryStep s.rng).1, rfl, ?_, ?_⟩)
      · rw [hunv]
        apply getD_mem
        exact randIndex_lt _ _ (mulberry_out_lt s.rng) (Nat.succ_pos _)
      · unfold genStep
        rw [hst]
        simp only [hunv]

theorem updMask_ne (g : Nat → Nat) (i d j : Nat) (h : j ≠ i) : updMask g i d j = g j :=
  if_neg h

theorem genInv_pop (cols rows : Nat) (s : GenState) (cur : Nat × Nat)
    (rest : List (Nat × Nat)) (h : GenInv cols rows s) (hst : s.stack = cur :: rest)
    (hemp : (neighbors cols rows cur.1 cur.2).filter
      (fun nb => decide (nIdx cols nb.x nb.y ∉ s.visited)) = []) :
    GenInv cols rows { s with stack := rest } := by
  refine ⟨h.visBound, h.startVis, ?_, ?_, h.mutualInv, h.closedFresh, ?_, h.reach, h.count,
    h.acyclic⟩
  · intro c hc
    exact h.stackGrid c (by rw [hst]; exact List.mem_cons_of_mem cur hc)
  · have hn := h.stackNodup
    rw [hst, List.map_cons] at hn
    exact hn.of_cons
  · intro x y hx hy hvis hnst d q hq
    by_cases hcur : (x, y) = cur
    · have hd4 := nbr_some_dir_lt cols rows x y d q hq
      have hmem : (⟨q.1, q.2, d⟩ : Nb) ∈ neighbors cols rows cur.1 cur.2 := by
        rw [← hcur]
        exact (mem_neighbors cols rows x y ⟨q.1, q.2, d⟩).2 ⟨hd4, hq⟩
      have hnv := List.filter_eq_nil_iff.1 hemp _ hmem
      simp only [decide_eq_true_eq] at hnv
      exact not_not.1 hnv
    · refine h.closure x y hx hy hvis ?_ d q hq
      rw [hst]
      intro hmem
      rcases List.mem_cons.1 hmem with he | he
      · exact hcur he
      · exact hnst he

theorem genInv_carve (cols rows : Nat) (s : GenState) (cur : Nat × Nat)
    (rest : List (Nat × Nat)) (nb : Nb) (rng2 : Nat)
    (h : GenInv cols rows s) (hst : s.stack = cur :: rest)
    (hmem : nb ∈ (neighbors cols rows cur.1 cur.2).filter
      (fun nb2 => decide (nIdx cols nb2.x nb2.y ∉ s.visited))) :
    GenInv cols rows (GenState.mk (carve cols s.grid cur.1 cur.2 nb)
      ((nb.x, nb.y) :: s.stack) (insert (nIdx cols nb.x nb.y) s.visited) rng2) := by
  obtain ⟨hcx, hcy, hcvis⟩ := h.stackGrid cur (by rw [hst]; exact List.mem_cons_self cur rest)
  obtain ⟨hnbmem, hdec⟩ := List.mem_filter.1 hmem
  have hnvis : nIdx cols nb.x nb.y ∉ s.visited := by
    simpa using hdec
  obtain ⟨hd4, hn⟩ := (mem_neighbors cols rows cur.1 cur.2 nb).1 hnbmem
  have hngrid := nbr_in_grid cols rows cur.1 cur.2 nb.dir (nb.x, nb.y) hcx hcy hn
  have hfresh : s.grid (nIdx cols nb.x nb.y) = 0 :=
    h.closedFresh nb.x nb.y hngrid.1 hngrid.2 hnvis
  have hclosed : isOpen (s.grid (nIdx cols cur.1 cur.2)) nb.dir = false := by
    cases hop : isOpen (s.grid (nIdx cols cur.1 cur.2)) nb.dir with
    | false => rfl
    | true =>
      obtain ⟨q, hq, hbit⟩ := h.mutualInv cur.1 cur.2 nb.dir hcx hcy hd4 hop
      rw [hn] at hq
      injection hq with hq
      rw [← hq, hfresh, isOpen_zero] at hbit
      cases hbit
  have hsym := nbr_symm cols rows cur.1 cur.2 nb.dir (nb.x, nb.y) hcx hcy hn
  refine ⟨?_, ?_, ?_, ?_, ?_, ?_, ?_, ?_, ?_, ?_⟩
  · intro i hi
    rcases Finset.mem_insert.1 hi with rfl | hi2
    · exact nIdx_lt cols rows nb.x nb.y hngrid.1 hngrid.2
    · exact h.visBound i hi2
  · exact Finset.mem_insert_of_mem h.startVis
  · intro c hc
    rcases List.mem_cons.1 hc with rfl | hc2
    · exact ⟨hngrid.1, hngrid.2, Finset.mem_insert_self _ _⟩
    · obtain ⟨h1, h2, h3⟩ := h.stackGrid c hc2
      exact ⟨h1, h2, Finset.mem_insert_of_mem h3⟩
  · rw [List.map_cons]
    refine List.nodup_cons.2 ⟨?_, h.stackNodup⟩
    intro hmem2
    rw [List.mem_map] at hmem2
    obtain ⟨c, hcmem, hceq⟩ := hmem2
    have := (h.stackGrid c hcmem).2.2
    rw [hceq] at this
    exact hnvis this
  · intro x y d hx hy hdlt hop
    rcases (isOpen_carve_iff cols s.grid cur.1 cur.2 nb (nIdx cols x y) d).1 hop with
      hold | ⟨hXi, hXd⟩ | ⟨hXi, hXd⟩
    · obtain ⟨q, hq, hbit⟩ := h.mutualInv x y d hx hy hdlt hold
      exact ⟨q, hq, isOpen_carve_mono cols s.grid cur.1 cur.2 nb _ _ hbit⟩
    · obtain ⟨e1, e2⟩ := nIdx_inj cols x y cur.1 cur.2 hx hcx hXi
      subst e1
      subst e2
      subst hXd
      refine ⟨(nb.x, nb.y), hn, ?_⟩
      exact (isOpen_carve_iff cols s.grid cur.1 cur.2 nb _ _).2 (Or.inr (Or.inr ⟨rfl, rfl⟩))
    · obtain ⟨e1, e2⟩ := nIdx_inj cols x y nb.x nb.y hx hngrid.1 hXi
      subst e1
      subst e2
      subst hXd
      refine ⟨(cur.1, cur.2), hsym, ?_⟩
      have hopp : ((nb.dir + 2) % 4 + 2) % 4 = nb.dir := by omega
      rw [hopp]
      refine (isOpen_carve_iff cols s.grid cur.1 cur.2 nb _ _).2 ?_
      exact Or.inr (Or.inl ⟨by rfl, rfl⟩)
  · intro x y hx hy hnv
    have h1 : nIdx cols x y ≠ nIdx cols nb.x nb.y := by
      intro he
      exact hnv (he ▸ Finset.mem_insert_self _ _)
    have h2 : nIdx cols x y ∉ s.visited := fun hv2 => hnv (Finset.mem_insert_of_mem hv2)
    have h3 : nIdx cols x y ≠ nIdx cols cur.1 cur.2 := by
      intro he
      exact h2 (he ▸ hcvis)
    show carve cols s.grid cur.1 cur.2 nb (nIdx cols x y) = 0
    unfold carve
    rw [updMask_ne _ _ _ _ h1, updMask_ne _ _ _ _ h3]
    exact h.closedFresh x y hx hy h2
  · intro x y hx hy hvis hnst d q hq
    rcases Finset.mem_insert.1 hvis with he | hvis2
    · exfalso
      obtain ⟨e1, e2⟩ := nIdx_inj cols x y nb.x nb.y hx hngrid.1 he
      exact hnst (by rw [e1, e2]; exact List.mem_cons_self _ _)
    · have hnst2 : (x, y) ∉ s.stack := fun hmem3 =>
        hnst (List.mem_cons_of_mem _ hmem3)
      exact Finset.mem_insert_of_mem (h.closure x y hx hy hvis2 hnst2 d q hq)
  · intro i hi
    rcases Finset.mem_insert.1 hi with rfl | hi2
    · have hreachci := reach_carve_mono cols rows s.grid cur.1 cur.2 nb _ _
        (h.reach _ hcvis)
      refine Relation.ReflTransGen.tail hreachci ?_
      refine (adjB_carve_iff cols rows s.grid cur.1 cur.2 nb hcx hcy hd4 hn hfresh hclosed
        _ _).2 ?_
      exact Or.inr (Or.inl ⟨rfl, rfl⟩)
    · exact reach_carve_mono cols rows s.grid cur.1 cur.2 nb _ _ (h.reach i hi2)
  · show pairCount cols rows (carve cols s.grid cur.1 cur.2 nb) + 1 =
      (insert (nIdx cols nb.x nb.y) s.visited).card
    rw [pairCount_carve cols rows s.grid cur.1 cur.2 nb hcx hcy hd4 hn hfresh hclosed,
      Finset.card_insert_of_not_mem hnvis]
    have := h.count
    omega
  · exact acyclic_carve cols rows s.grid cur.1 cur.2 nb hcx hcy hd4 hn hfresh hclosed
      h.acyclic

/-! ### The generation loop: invariant preservation and termination -/

theorem genInv_step (cols rows : Nat) (s : GenState) (h : GenInv cols rows s) :
    GenInv cols rows (genStep cols rows s) := by
  rcases genStep_cases cols rows s with ⟨_, heq⟩ | ⟨cur, rest, hst, hemp, heq⟩ |
    ⟨cur, rest, nb, rng2, hst, hmem, heq⟩
  · rw [heq]
    exact h
  · rw [heq]
    exact genInv_pop cols rows s cur rest h hst hemp
  · rw [heq]
    exact genInv_carve cols rows s cur rest nb rng2 h hst hmem

theorem genInv_loop (cols rows fuel : Nat) (s : GenState) (h : GenInv cols rows s) :
    GenInv cols rows (genLoop cols rows fuel s) := by
  induction fuel generalizing s with
  | zero => exact h
  | succ n ih =>
    unfold genLoop
    split
    · exact h
    · exact ih _ (genInv_step cols rows s h)

theorem genMeasure_step (cols rows : Nat) (s : GenState) (h : GenInv cols rows s)
    (hne : s.stack ≠ []) :
    genMeasure cols rows (genStep cols rows s) < genMeasure cols rows s := by
  rcases genStep_cases cols rows s with ⟨he, _⟩ | ⟨cur, rest, hst, hemp, heq⟩ |
    ⟨cur, rest, nb, rng2, hst, hmem, heq⟩
  · exact absurd he hne
  · rw [heq]
    unfold genMeasure
    simp only []
    rw [hst]
    simp only [List.length_cons]
    omega
  · obtain ⟨hnbmem, hdec⟩ := List.mem_filter.1 hmem
    have hnvis : nIdx cols nb.x nb.y ∉ s.visited := by simpa using hdec
    obtain ⟨hcx, hcy, _⟩ := h.stackGrid cur (by rw [hst]; exact List.mem_cons_self cur rest)
    obtain ⟨hd4, hn⟩ := (mem_neighbors cols rows cur.1 cur.2 nb).1 hnbmem
    have hngrid := nbr_in_grid cols rows cur.1 cur.2 nb.dir (nb.x, nb.y) hcx hcy hn
    have hni : nIdx cols nb.x nb.y < cols * rows :=
      nIdx_lt cols rows nb.x nb.y hngrid.1 hngrid.2
    have hsub : insert (nIdx cols nb.x nb.y) s.visited ⊆ Finset.range (cols * rows) := by
      intro j hj
      rw [Finset.mem_range]
      rcases Finset.mem_insert.1 hj with rfl | hj2
      · exact hni
      · exact h.visBound j hj2
    have hcard : (insert (nIdx cols nb.x nb.y) s.visited).card ≤ cols * rows := by
      calc (insert (nIdx cols nb.x nb.y) s.visited).card
          ≤ (Finset.range (cols * rows)).card := Finset.card_le_card hsub
        _ = cols * rows := Finset.card_range _
    rw [heq]
    unfold genMeasure
    simp only []
    rw [Finset.card_insert_of_not_mem hnvis, hst]
    simp only [List.length_cons]
    rw [Finset.card_insert_of_not_mem hnvis] at hcard
    omega

theorem genLoop_stack_empty (cols rows fuel : Nat) (s : GenState)
    (h : GenInv cols rows s) (hfuel : genMeasure cols rows s ≤ fuel) :
    (genLoop cols rows fuel s).stack = [] := by
  induction fuel generalizing s with
  | zero =>
    have hz : s.stack.length = 0 := by
      unfold genMeasure at hfuel
      omega
    exact List.length_eq_zero.1 hz
  | succ n ih =>
    unfold genLoop
    split
    · next he => exact he
    · next he =>
      refine ih (genStep cols rows s) (genInv_step cols rows s h) ?_
      have := genMeasure_step cols rows s h he
      omega

/-! ### Invariants hold initially -/

theorem nIdx_zero (cols : Nat) : nIdx cols 0 0 = 0 := by
  unfold nIdx
  omega

theorem pairCount_zero (cols rows : Nat) : pairCount cols rows (fun _ => 0) = 0 := by
  unfold pairCount
  rw [Finset.card_eq_zero, Finset.eq_empty_iff_forall_not_mem]
  intro e he
  rw [mem_pairSet] at he
  obtain ⟨_, _, _, hop⟩ := he
  rw [openPair_iff] at hop
  obtain ⟨hbit, _⟩ := hop
  simp only [isOpen_zero] at hbit
  cases hbit

theorem genInv_init (cols rows seed : Nat) (hc : 0 < cols) (hr : 0 < rows) :
    GenInv cols rows (genInit cols rows seed) := by
  have hN : 0 < cols * rows := Nat.mul_pos hc hr
  refine ⟨?_, ?_, ?_, ?_, ?_, ?_, ?_, ?_, ?_, ?_⟩
  · intro i hi
    rw [Finset.mem_singleton.1 hi, nIdx_zero]
    exact hN
  · exact Finset.mem_singleton_self _
  · intro c hc2
    cases List.mem_singleton.1 hc2
    exact ⟨hc, hr, Finset.mem_singleton_self _⟩
  · exact List.nodup_singleton _
  · intro x y d _ _ _ hop
    rw [show (genInit cols rows seed).grid (nIdx cols x y) = 0 from rfl, isOpen_zero] at hop
    cases hop
  · intro x y _ _ _
    rfl
  · intro x y hx hy hvis hnst d q hq
    exfalso
    have heq := Finset.mem_singleton.1 hvis
    obtain ⟨e1, e2⟩ := nIdx_inj cols x y 0 0 hx hc heq
    exact hnst (by rw [e1, e2]; exact List.mem_singleton.2 rfl)
  · intro i hi
    rw [Finset.mem_singleton.1 hi]
    exact Relation.ReflTransGen.refl
  · show pairCount cols rows (fun _ => 0) + 1 = ({nIdx cols 0 0} : Finset Nat).card
    rw [pairCount_zero, Finset.card_singleton]
  · exact acyclic_zero_adj cols rows _ (fun i d => isOpen_zero d)

/-! ### With the stack empty, every cell has been visited -/

theorem genInv_all_visited (cols rows : Nat) (s : GenState) (h : GenInv cols rows s)
    (hemp : s.stack = []) (hc : 0 < cols) (hr : 0 < rows) :
    ∀ x y, x < cols → y < rows → nIdx cols x y ∈ s.visited := by
  have hnst : ∀ x y : Nat, ((x, y) : Nat × Nat) ∉ s.stack := by
    intro x y
    rw [hemp]
    exact List.not_mem_nil _
  have hrow : ∀ x, x < cols → nIdx cols x 0 ∈ s.visited := by
    intro x
    induction x with
    | zero => intro _; exact h.startVis
    | succ n ih =>
      intro hx
      exact h.closure n 0 (by omega) hr (ih (by omega)) (hnst n 0) 1 (n + 1, 0)
        (nbr1 cols rows n 0 hx)
  intro x y hx
  induction y with
  | zero => intro _; exact hrow x hx
  | succ m ih =>
    intro hy
    exact h.closure x m hx (by omega) (ih (by omega)) (hnst x m) 2 (x, m + 1)
      (nbr2 cols rows x m hy)

theorem genInv_visited_eq_range (cols rows : Nat) (s : GenState) (h : GenInv cols rows s)
    (hemp : s.stack = []) (hc : 0 < cols) (hr : 0 < rows) :
    s.visited = Finset.range (cols * rows) := by
  apply Finset.Subset.antisymm
  · intro i hi
    rw [Finset.mem_range]
    exact h.visBound i hi
  · intro i hi
    rw [Finset.mem_range] at hi
    obtain ⟨hxm, hyd, hrec⟩ := nIdx_recover cols rows i hi
    rw [← hrec]
    exact genInv_all_visited cols rows s h hemp hc hr _ _ hxm hyd

/-! ### From index-level reachability to graph reachability -/

theorem reach_graph (cols rows : Nat) (g : Nat → Nat) (i j : Nat) (hi : i < cols * rows)
    (hr : Reach cols rows g i j) :
    ∃ (hj : j < cols * rows),
      (passageGraph cols rows g).Reachable ⟨i, hi⟩ ⟨j, hj⟩ := by
  induction hr with
  | refl => exact ⟨hi, SimpleGraph.Reachable.refl _⟩
  | tail hab hbc ih =>
    obtain ⟨hb, hreach⟩ := ih
    obtain ⟨hclt, hbne⟩ := adjB_target cols rows g _ _ hb hbc
    refine ⟨hclt, hreach.trans (SimpleGraph.Adj.reachable ?_)⟩
    exact ⟨Fin.ne_of_val_ne hbne, Or.inl hbc⟩

/-! ### The two main generation theorems -/

/-- C7: mutual passage invariant.  At every point of the generation loop
(`genLoop` with arbitrary fuel covers the state after every carving
step; `generate` is its `2 * cols * rows`-fuel instance), whenever a
cell's passage bit `d` is open and the neighbour in direction `d` is
inside the grid, that neighbour's opposite bit `(d + 2) % 4` is open as
well — passages are always mutually declared. -/
theorem mutual_passage_invariant (cols rows seed : Nat) (hc : 1 ≤ cols) (hr : 1 ≤ rows) :
    (∀ fuel x y d q, x < cols → y < rows → d < 4 →
      isOpen ((genLoop cols rows fuel (genInit cols rows seed)).grid (nIdx cols x y)) d
        = true →
      nbr cols rows x y d = some q →
      isOpen ((genLoop cols rows fuel (genInit cols rows seed)).grid (nIdx cols q.1 q.2))
        ((d + 2) % 4) = true) ∧
    (∀ x y d q, x < cols → y < rows → d < 4 →
      isOpen (generate cols rows seed (nIdx cols x y)) d = true →
      nbr cols rows x y d = some q →
      isOpen (generate cols rows seed (nIdx cols q.1 q.2)) ((d + 2) % 4) = true) := by
  have hmain : ∀ fuel x y d q, x < cols → y < rows → d < 4 →
      isOpen ((genLoop cols rows fuel (genInit cols rows seed)).grid (nIdx cols x y)) d
        = true →
      nbr cols rows x y d = some q →
      isOpen ((genLoop cols rows fuel (genInit cols rows seed)).grid (nIdx cols q.1 q.2))
        ((d + 2) % 4) = true := by
    intro fuel x y d q hx hy hd hop hq
    have hinv := genInv_loop cols rows fuel _ (genInv_init cols rows seed hc hr)
    obtain ⟨q2, hq2, hbit⟩ := hinv.mutualInv x y d hx hy hd hop
    rw [hq] at hq2
    injection hq2 with hq2
    rw [← hq2] at hbit
    exact hbit
  exact ⟨hmain, fun x y d q => hmain (2 * (cols * rows)) x y d q⟩

/-- C7 witness: the invariant applied to the 2 × 2 maze of seed 1. -/
theorem mutual_passage_invariant_witness :
    (1 ≤ 2) ∧ (1 ≤ 2) ∧
    ((∀ fuel x y d q, x < 2 → y < 2 → d < 4 →
      isOpen ((genLoop 2 2 fuel (genInit 2 2 1)).grid (nIdx 2 x y)) d = true →
      nbr 2 2 x y d = some q →
      isOpen ((genLoop 2 2 fuel (genInit 2 2 1)).grid (nIdx 2 q.1 q.2)) ((d + 2) % 4)
        = true) ∧
    (∀ x y d q, x < 2 → y < 2 → d < 4 →
      isOpen (generate 2 2 1 (nIdx 2 x y)) d = true →
      nbr 2 2 x y d = some q →
      isOpen (generate 2 2 1 (nIdx 2 q.1 q.2)) ((d + 2) % 4) = true)) :=
  ⟨by decide, by decide, mutual_passage_invariant 2 2 1 (by decide) (by decide)⟩

/-- C2: for every `cols, rows ≥ 1` and any seed, the generation loop
terminates (the fuel bound `2 * cols * rows` empties the stack) and
produces a perfect maze: the number of mutually carved passage pairs is
exactly `cols * rows - 1`, every cell is reachable from `(0, 0)` through
open passages, and the passage graph is a tree (connected and acyclic);
in particular a 1 × 1 maze has no passages and a single row or column
yields a corridor, with no error. -/
theorem generate_perfect_maze (cols rows seed : Nat) (hc : 1 ≤ cols) (hr : 1 ≤ rows) :
    (genLoop cols rows (2 * (cols * rows)) (genInit cols rows seed)).stack = [] ∧
    pairCount cols rows (generate cols rows seed) = cols * rows - 1 ∧
    (∀ x y, x < cols → y < rows →
      Reach cols rows (generate cols rows seed) (nIdx cols 0 0) (nIdx cols x y)) ∧
    (passageGraph cols rows (generate cols rows seed)).IsTree := by
  have hN : 0 < cols * rows := Nat.mul_pos hc hr
  have hinit := genInv_init cols rows seed hc hr
  have hinv : GenInv cols rows (genLoop cols rows (2 * (cols * rows))
      (genInit cols rows seed)) :=
    genInv_loop cols rows (2 * (cols * rows)) _ hinit
  have hfuel : genMeasure cols rows (genInit cols rows seed) ≤ 2 * (cols * rows) := by
    unfold genMeasure genInit
    simp only [Finset.card_singleton, List.length_singleton]
    omega
  have hemp : (genLoop cols rows (2 * (cols * rows)) (genInit cols rows seed)).stack = [] :=
    genLoop_stack_empty cols rows (2 * (cols * rows)) _ hinit hfuel
  have hall := genInv_all_visited cols rows _ hinv hemp hc hr
  have hrange := genInv_visited_eq_range cols rows _ hinv hemp hc hr
  have hcard : (genLoop cols rows (2 * (cols * rows)) (genInit cols rows seed)).visited.card
      = cols * rows := by
    rw [hrange, Finset.card_range]
  refine ⟨hemp, ?_, ?_, ?_⟩
  · have hco := hinv.count
    rw [hcard] at hco
    show pairCount cols rows
      (genLoop cols rows (2 * (cols * rows)) (genInit cols rows seed)).grid = cols * rows - 1
    omega
  · intro x y hx hy
    exact hinv.reach _ (hall x y hx hy)
  · refine ⟨?_, hinv.acyclic⟩
    rw [SimpleGraph.connected_iff]
    refine ⟨?_, ⟨⟨0, hN⟩⟩⟩
    intro u v
    have hstart : nIdx cols 0 0 < cols * rows := by
      rw [nIdx_zero]
      exact hN
    have hcell : ∀ w : Fin (cols * rows),
        (passageGraph cols rows (generate cols rows seed)).Reachable ⟨nIdx cols 0 0, hstart⟩ w := by
      intro w
      obtain ⟨hxm, hyd, hrec⟩ := nIdx_recover cols rows (w : Nat) w.isLt
      have hv : nIdx cols (w % cols) (w / cols) ∈
          (genLoop cols rows (2 * (cols * rows)) (genInit cols rows seed)).visited :=
        hall _ _ hxm hyd
      have hre := hinv.reach _ hv
      rw [hrec] at hre
      obtain ⟨hj, hreach⟩ := reach_graph cols rows _ (nIdx cols 0 0) (w : Nat) hstart hre
      have : (⟨(w : Nat), hj⟩ : Fin (cols * rows)) = w := Fin.ext rfl
      rw [this] at hreach
      exact hreach
    exact (hcell u).symm.trans (hcell v)

/-- C2 witness: the perfect-maze theorem applied to the 5 × 5 maze of
seed 42 (the spec's concrete scenario 1). -/
theorem generate_perfect_maze_witness :
    (1 ≤ 5) ∧ (1 ≤ 5) ∧
    ((genLoop 5 5 (2 * (5 * 5)) (genInit 5 5 42)).stack = [] ∧
     pairCount 5 5 (generate 5 5 42) = 5 * 5 - 1 ∧
     (∀ x y, x < 5 → y < 5 → Reach 5 5 (generate 5 5 42) (nIdx 5 0 0) (nIdx 5 x y)) ∧
     (passageGraph 5 5 (generate 5 5 42)).IsTree) :=
  ⟨by decide, by decide, generate_perfect_maze 5 5 42 (by decide) (by decide)⟩

end Lost
